import Mathlib

/-!
# Verification of the LIRS cache replacement simulator (`src/LIRS.py`)

Shallow embedding of the LIRS engine.  Conventions of the embedding:

* Python `OrderedDict` objects `S` and `Q` are modelled as lists of keys in
  LRU→MRU order (head = LRU end), together with a single store
  `entries : ℕ → Entry` mapping each key to the `Entry` object currently
  associated with it.  The source shares one mutable `Entry` object per key
  between `S` and `Q` (every insertion into either dict stores the object
  obtained by looking up or creating the entry for that same key in the same
  call, and the code asserts `key == entry.key` throughout), so a single
  key-indexed store is a faithful heap model; attribute mutation is modelled
  as updating the store at that key.
* Python 2 `OrderedDict.__setitem__` keeps the original position of an
  existing key, so insertion appends only when the key is absent.
* Python machine floats (`maxhirs`, `maxlirs`, `maxSlength`,
  `sizeLimitFactor`) are modelled as exact rationals; Python ints as ℤ/ℕ
  (they are unbounded, no wrap-around).
* Failures are explicit: `assert` statements map to `.error .assertionError`,
  `del d[k]` / `popitem` on a missing key to `.error .keyError`,
  `next(itervalues())` on an empty dict to `.error .stopIteration`, and a
  short `struct.unpack` read to `.error .structError`.  An uncaught Python
  exception aborts the program, so no post-error state is modelled.
-/

namespace LirsPy

/-- Python exceptions that the source can raise. -/
inductive PyError where
  | assertionError
  | keyError
  | stopIteration
  | structError
deriving DecidableEq, Repr

/-- `LIR = 0`, `HIR = 1` (flags, `src/LIRS.py` lines 11-12). -/
inductive Flag where
  | LIR
  | HIR
deriving DecidableEq, Repr

/-- `MIN_HIR_RESIDENT = 2` (line 21). -/
def MIN_HIR_RESIDENT : ℚ := 2

/-- One cache entry (`class Entry`, lines 32-36). -/
structure Entry where
  key : ℕ
  flag : Flag
  resident : Bool
deriving DecidableEq, Repr

/-- `Entry.__init__`: a fresh entry is HIR and resident (lines 33-36). -/
def Entry.mkNew (key : ℕ) : Entry :=
  { key := key, flag := Flag.HIR, resident := true }

/-- The LIRS engine state (`LIRS.__init__`, lines 45-61). -/
structure LIRS where
  c : ℕ
  lirs : ℤ
  hirs : ℤ
  maxhirs : ℚ
  maxlirs : ℚ
  /-- keys of the OrderedDict `S`, LRU first -/
  S : List ℕ
  /-- keys of the OrderedDict `Q`, LRU first -/
  Q : List ℕ
  /-- the shared `Entry` objects, indexed by key -/
  entries : ℕ → Entry
  refs : ℕ
  misses : ℕ
  lastKey : Option ℕ
  recordLirs : ℕ
  pruneCount : ℕ
  sizeLimitFactor : ℚ
  maxSlength : ℚ

/-- `LIRS.__init__(cacheSize, sizeLimitFactor, hirPercent)` (lines 45-61).
`maxhirs = max(MIN_HIR_RESIDENT, (hirPercent*0.01)*cacheSize)` and
`maxlirs = cacheSize - maxhirs`; the float arithmetic is modelled exactly
over ℚ. -/
def LIRS.init (cacheSize : ℕ) (sizeLimitFactor : ℚ) (hirPercent : ℕ) : LIRS :=
  let maxhirs : ℚ := max MIN_HIR_RESIDENT ((hirPercent : ℚ) * (1 / 100) * (cacheSize : ℚ))
  { c := cacheSize
    lirs := 0
    hirs := 0
    maxhirs := maxhirs
    maxlirs := (cacheSize : ℚ) - maxhirs
    S := []
    Q := []
    entries := fun k => Entry.mkNew k
    refs := 0
    misses := 0
    lastKey := none
    recordLirs := 0
    pruneCount := 0
    sizeLimitFactor := sizeLimitFactor
    maxSlength := sizeLimitFactor * (cacheSize : ℚ) }

/-- Point update of the entry store (models mutating the shared `Entry`
object registered under `key`, or storing a new object there). -/
def updEntries (es : ℕ → Entry) (key : ℕ) (e : Entry) : ℕ → Entry :=
  fun k => if k = key then e else es k

/-- `LIRS.removeFromS(entry)` (lines 186-189): `del self.S[entry.key]`
(KeyError when absent), decrement `lirs` when the entry is resident LIR. -/
def LIRS.removeFromS (s : LIRS) (entry : Entry) : Except PyError LIRS :=
  if entry.key ∈ s.S then
    .ok { s with
          S := s.S.erase entry.key
          lirs := if entry.flag = Flag.LIR ∧ entry.resident then s.lirs - 1 else s.lirs }
  else .error .keyError

/-- `LIRS.removeFromQ(entry)` (lines 192-195): `del self.Q[entry.key]`
(KeyError when absent), `hirs -= 1`, then `assert entry.resident`. -/
def LIRS.removeFromQ (s : LIRS) (entry : Entry) : Except PyError LIRS :=
  if entry.key ∈ s.Q then
    if entry.resident then
      .ok { s with Q := s.Q.erase entry.key, hirs := s.hirs - 1 }
    else .error .assertionError
  else .error .keyError

/-- `LIRS.addSentryMRU(key, entry)` (lines 198-201): `self.S[key] = entry`
(append at MRU when the key is new, keep position otherwise), increment
`lirs` when the entry is resident LIR. -/
def LIRS.addSentryMRU (s : LIRS) (key : ℕ) (entry : Entry) : LIRS :=
  { s with
    S := if key ∈ s.S then s.S else s.S ++ [key]
    entries := updEntries s.entries key entry
    lirs := if entry.flag = Flag.LIR ∧ entry.resident then s.lirs + 1 else s.lirs }

/-- `LIRS.addQentryMRU(key, entry)` (lines 204-206): `self.Q[key] = entry`,
`hirs += 1`. -/
def LIRS.addQentryMRU (s : LIRS) (key : ℕ) (entry : Entry) : LIRS :=
  { s with
    Q := if key ∈ s.Q then s.Q else s.Q ++ [key]
    entries := updEntries s.entries key entry
    hirs := s.hirs + 1 }

/-- `LIRS.popSentryLRU()` (lines 209-213): `S.popitem(last=False)` (KeyError
on an empty dict), decrement `lirs` when the popped entry is resident LIR. -/
def LIRS.popSentryLRU (s : LIRS) : Except PyError ((ℕ × Entry) × LIRS) :=
  match s.S with
  | [] => .error .keyError
  | k :: rest =>
      let entry := s.entries k
      .ok ((k, entry),
        { s with
          S := rest
          lirs := if entry.flag = Flag.LIR ∧ entry.resident then s.lirs - 1 else s.lirs })

/-- `LIRS.popQentryLRU()` (lines 216-219). -/
def LIRS.popQentryLRU (s : LIRS) : Except PyError ((ℕ × Entry) × LIRS) :=
  match s.Q with
  | [] => .error .keyError
  | k :: rest => .ok ((k, s.entries k), { s with Q := rest, hirs := s.hirs - 1 })

/-- `LIRS.peekSentryLRU()` (lines 221-222): `next` on an empty iterator
raises StopIteration. -/
def LIRS.peekSentryLRU (s : LIRS) : Except PyError Entry :=
  match s.S with
  | [] => .error .stopIteration
  | k :: _ => .ok (s.entries k)

/-- `LIRS.migrateLIRtoHIR()` (lines 140-148): pop the LRU of S, assert it is
a resident LIR with a consistent key, flip its flag to HIR and push it to
the MRU of Q (it is not reinserted into S). -/
def LIRS.migrateLIRtoHIR (s : LIRS) : Except PyError LIRS :=
  match s.popSentryLRU with
  | .error e => .error e
  | .ok ((key, entry), s) =>
      if key = entry.key then
        if entry.flag = Flag.LIR ∧ entry.resident then
          let entry : Entry := { entry with flag := Flag.HIR }
          .ok (s.addQentryMRU key entry)
        else .error .assertionError
      else .error .assertionError

/-- The `while` loop of `LIRS.prune()` (lines 152-163), structurally
recursive on the key list of S.  The peeked `entryLRU` and the popped
`entry` are the same head object, so the loop body's asserts collapse to:
key consistency, HIR flag, and residency matching membership in Q. -/
def pruneGo (es : ℕ → Entry) (q : List ℕ) : List ℕ → ℤ → Except PyError (List ℕ × ℤ)
  | [], lirs => .ok ([], lirs)
  | k :: rest, lirs =>
      let entryLRU := es k
      if entryLRU.flag = Flag.LIR then .ok (k :: rest, lirs)
      else
        -- popSentryLRU
        let lirs' := if entryLRU.flag = Flag.LIR ∧ entryLRU.resident then lirs - 1 else lirs
        if entryLRU.key = k ∧ entryLRU.flag = Flag.HIR then
          if entryLRU.resident then
            if k ∈ q then pruneGo es q rest lirs' else .error .assertionError
          else
            if k ∈ q then .error .assertionError else pruneGo es q rest lirs'
        else .error .assertionError

/-- `LIRS.prune()` (lines 150-163): bump `pruneCount`, then drop HIR entries
from the LRU end of S until the LRU entry is LIR or S is empty. -/
def LIRS.prune (s : LIRS) : Except PyError LIRS :=
  match pruneGo s.entries s.Q s.S s.lirs with
  | .error e => .error e
  | .ok (S', lirs') => .ok { s with S := S', lirs := lirs', pruneCount := s.pruneCount + 1 }

/-- `LIRS.evictQentryLRU()` (lines 166-171): assert `hirs >= maxhirs`, pop
the LRU of Q, assert it is a resident HIR, mark it non-resident (it may
still be in S), assert `hirs <= maxhirs`. -/
def LIRS.evictQentryLRU (s : LIRS) : Except PyError LIRS :=
  if (s.hirs : ℚ) ≥ s.maxhirs then
    match s.popQentryLRU with
    | .error e => .error e
    | .ok ((key, entry), s) =>
        if entry.flag = Flag.HIR ∧ entry.resident then
          let entry : Entry := { entry with resident := false }
          let s := { s with entries := updEntries s.entries key entry }
          if (s.hirs : ℚ) ≤ s.maxhirs then .ok s else .error .assertionError
        else .error .assertionError
  else .error .assertionError

/-- The `for` loop of `LIRS.shrink()` (lines 179-182): remove the first
(oldest) HIR entry from S, scanning LRU→MRU; remove nothing when every
entry is LIR. -/
def removeFirstHIR (es : ℕ → Entry) : List ℕ → List ℕ
  | [] => []
  | k :: rest =>
      if (es k).flag = Flag.HIR then rest else k :: removeFirstHIR es rest

/-- `LIRS.shrink()` (lines 174-183): when `len(S) > maxSlength` remove the
oldest HIR entry from S, then assert `len(S) <= maxSlength`. -/
def LIRS.shrink (s : LIRS) : Except PyError LIRS :=
  let s :=
    if (s.S.length : ℚ) > s.maxSlength then
      { s with S := removeFirstHIR s.entries s.S }
    else s
  if (s.S.length : ℚ) ≤ s.maxSlength then .ok s else .error .assertionError

/-- `LIRS.processReference`, branch `key in self.S`, HIR sub-branch tail
(lines 86-94): make space in Q when `hirs >= maxhirs`, set the entry to
resident LIR, assert `hirs <= maxhirs`, migrate one LIR to HIR, prune. -/
def LIRS.promoteHIRinS (s : LIRS) (key : ℕ) (entry : Entry) (hit : Bool) :
    Except PyError (LIRS × Entry × Bool) :=
  match (if (s.hirs : ℚ) ≥ s.maxhirs then s.evictQentryLRU else .ok s) with
  | .error e => .error e
  | .ok s =>
      let entry : Entry := { entry with flag := Flag.LIR, resident := true }
      let s := { s with entries := updEntries s.entries key entry }
      if (s.hirs : ℚ) ≤ s.maxhirs then
        match s.migrateLIRtoHIR with
        | .error e => .error e
        | .ok s =>
            match s.prune with
            | .error e => .error e
            | .ok s => .ok (s, entry, hit)
      else .error .assertionError

/-- `LIRS.processReference`, branch `key in self.S` (lines 72-98): remove
the entry from S; a HIR entry is promoted to LIR (hit when it was resident,
miss otherwise); a LIR entry is a hit followed by a prune. -/
def LIRS.refInS (s : LIRS) (key : ℕ) : Except PyError (LIRS × Entry × Bool) :=
  let entry := s.entries key
  match s.removeFromS entry with
  | .error e => .error e
  | .ok s =>
      if entry.flag = Flag.HIR then
        if entry.resident then
          match s.removeFromQ entry with
          | .error e => .error e
          | .ok s => s.promoteHIRinS key entry true
        else s.promoteHIRinS key entry false
      else
        if entry.flag = Flag.LIR ∧ entry.resident then
          match s.prune with
          | .error e => .error e
          | .ok s => .ok (s, entry, true)
        else .error .assertionError

/-- `LIRS.processReference`, branch `key in self.Q` (lines 99-108): a hit;
assert key consistency and that the entry is a resident HIR, then move it
to the MRU of Q. -/
def LIRS.refInQ (s : LIRS) (key : ℕ) : Except PyError (LIRS × Entry × Bool) :=
  let entry := s.entries key
  if key = entry.key then
    if entry.resident ∧ entry.flag = Flag.HIR then
      match s.removeFromQ entry with
      | .error e => .error e
      | .ok s => .ok (s.addQentryMRU key entry, entry, true)
    else .error .assertionError
  else .error .assertionError

/-- `LIRS.processReference`, miss branch (lines 109-124): create a fresh
entry; make it LIR while `lirs < maxlirs`, otherwise keep it HIR, make
space in Q when `hirs >= maxhirs` and push it to the MRU of Q. -/
def LIRS.refMiss (s : LIRS) (key : ℕ) : Except PyError (LIRS × Entry × Bool) :=
  let entry := Entry.mkNew key
  if (s.lirs : ℚ) < s.maxlirs then
    .ok (s, { entry with flag := Flag.LIR }, false)
  else
    match (if (s.hirs : ℚ) ≥ s.maxhirs then s.evictQentryLRU else .ok s) with
    | .error e => .error e
    | .ok s =>
        let s := s.addQentryMRU key entry
        if entry.flag = Flag.HIR ∧ entry.resident then .ok (s, entry, false)
        else .error .assertionError

/-- `LIRS.processReference`, common tail (lines 125-136): add the entry at
the MRU of S, assert that the LRU of S is LIR, shrink, record the peak
length of S, count the miss. -/
def LIRS.refTail (s : LIRS) (key : ℕ) (entry : Entry) (hit : Bool) :
    Except PyError (LIRS × Bool) :=
  let s := s.addSentryMRU key entry
  match s.peekSentryLRU with
  | .error e => .error e
  | .ok lruEntry =>
      if lruEntry.flag = Flag.LIR then
        match s.shrink with
        | .error e => .error e
        | .ok s =>
            let s := { s with recordLirs := max s.recordLirs s.S.length }
            let s := if hit then s else { s with misses := s.misses + 1 }
            .ok (s, hit)
      else .error .assertionError

/-- `LIRS.processReference(key)` (lines 65-136). -/
def LIRS.processReference (s : LIRS) (key : ℕ) : Except PyError (LIRS × Bool) :=
  let s := { s with refs := s.refs + 1 }
  if some key = s.lastKey then .ok (s, true)
  else
    let s := { s with lastKey := some key }
    match (if key ∈ s.S then s.refInS key
           else if key ∈ s.Q then s.refInQ key
           else s.refMiss key) with
    | .error e => .error e
    | .ok (s, entry, hit) => s.refTail key entry hit

/-- Feed a trace of keys to the engine (the driver loops of `main`,
lines 286-308), collecting the hit/miss results. -/
def runTrace (s : LIRS) : List ℕ → Except PyError (LIRS × List Bool)
  | [] => .ok (s, [])
  | k :: ks =>
      match s.processReference k with
      | .error e => .error e
      | .ok (s', h) =>
          match runTrace s' ks with
          | .error e => .error e
          | .ok (s'', hs) => .ok (s'', h :: hs)

/-- Little-endian base-256 decoding of a byte string: the first byte is the
least significant (`struct.unpack('Q', data)` on a little-endian platform). -/
def decodeLE : List ℕ → ℕ
  | [] => 0
  | b :: bs => b + 256 * decodeLE bs

/-- A Python value fed to `processReference` by the driver: a plain integer
`n` or a one-element tuple `(n,)`. `struct.unpack` returns a tuple, so the
binary loop (line 306) passes tuples, never plain integers. -/
inductive PyKey where
  | int : ℕ → PyKey
  | tuple : ℕ → PyKey
deriving DecidableEq, Repr

/-- The binary-mode driver loop (`main`, lines 298-308): read 8-byte records
until EOF, collecting the value `block = struct.unpack('Q', data)` passed to
`processReference` for each; a final short record raises `struct.error`. -/
def readBinaryKeys : List ℕ → Except PyError (List PyKey)
  | [] => .ok []
  | b0 :: b1 :: b2 :: b3 :: b4 :: b5 :: b6 :: b7 :: rest =>
      match readBinaryKeys rest with
      | .error e => .error e
      | .ok ks => .ok (PyKey.tuple (decodeLE [b0, b1, b2, b3, b4, b5, b6, b7]) :: ks)
  | _ => .error .structError

/-- `maxhirs` as the specification's Counters section words it:
`max(MIN_HIR_RESIDENT, round(hirPercent/100 · C))`. This definition follows
the spec's TEXT (the code at line 49 applies no rounding); it exists only to
be compared against `LIRS.init`. -/
def maxhirsSpec (cacheSize hirPercent : ℕ) : ℚ :=
  max MIN_HIR_RESIDENT ((round ((hirPercent : ℚ) / 100 * (cacheSize : ℚ)) : ℤ) : ℚ)

/-- A small reachable-shaped state used to instantiate theorems about the
`key in S` branches: key 10 is a resident LIR at the bottom of S, key 5 a
non-resident HIR further up. -/
def sampleState : LIRS :=
  { c := 200, lirs := 1, hirs := 0, maxhirs := 2, maxlirs := 198,
    S := [10, 5], Q := [],
    entries := fun k =>
      if k = 5 then { key := 5, flag := Flag.HIR, resident := false }
      else if k = 10 then { key := 10, flag := Flag.LIR, resident := true }
      else Entry.mkNew k,
    refs := 0, misses := 0, lastKey := none, recordLirs := 0, pruneCount := 0,
    sizeLimitFactor := 2, maxSlength := 400 }

/-- A mid-reference-shaped state whose S has HIR entries at the LRU end
(key 5 a non-resident HIR, key 6 a resident HIR registered in Q, key 10 a
LIR above them), as after removing a bottom LIR: pruning it really pops
keys 5 and 6. -/
def sampleStatePrune : LIRS :=
  { c := 200, lirs := 1, hirs := 1, maxhirs := 2, maxlirs := 198,
    S := [5, 6, 10], Q := [6],
    entries := fun k =>
      if k = 5 then { key := 5, flag := Flag.HIR, resident := false }
      else if k = 6 then { key := 6, flag := Flag.HIR, resident := true }
      else if k = 10 then { key := 10, flag := Flag.LIR, resident := true }
      else Entry.mkNew k,
    refs := 0, misses := 0, lastKey := none, recordLirs := 0, pruneCount := 0,
    sizeLimitFactor := 2, maxSlength := 400 }

/-- A small state with a saturated Q (`hirs = maxhirs = 2`), used to
instantiate the eviction theorem: keys 7 and 8 are resident HIRs in Q. -/
def sampleStateQ : LIRS :=
  { c := 200, lirs := 1, hirs := 2, maxhirs := 2, maxlirs := 198,
    S := [3], Q := [7, 8],
    entries := fun k =>
      if k = 3 then { key := 3, flag := Flag.LIR, resident := true }
      else if k = 7 then { key := 7, flag := Flag.HIR, resident := true }
      else if k = 8 then { key := 8, flag := Flag.HIR, resident := true }
      else Entry.mkNew k,
    refs := 0, misses := 0, lastKey := none, recordLirs := 0, pruneCount := 0,
    sizeLimitFactor := 2, maxSlength := 400 }

/-! ## Basic lemmas about the entry store and LIR counting -/

@[simp] theorem updEntries_self (es : ℕ → Entry) (key : ℕ) (e : Entry) :
    updEntries es key e key = e := by
  simp [updEntries]

theorem updEntries_ne (es : ℕ → Entry) {k key : ℕ} (e : Entry) (h : k ≠ key) :
    updEntries es key e k = es k := by
  simp [updEntries, h]

/-- `residentLIR es k`: the entry registered under `k` is a resident LIR.
These are the entries counted by the `lirs` counter. -/
def residentLIR (es : ℕ → Entry) (k : ℕ) : Bool :=
  ((es k).flag == Flag.LIR) && (es k).resident

theorem residentLIR_iff (es : ℕ → Entry) (k : ℕ) :
    residentLIR es k = true ↔ (es k).flag = Flag.LIR ∧ (es k).resident = true := by
  simp [residentLIR]

/-- Number of resident LIR entries among the keys of `l`. -/
def lirCount (es : ℕ → Entry) (l : List ℕ) : ℕ :=
  (l.filter (residentLIR es)).length

@[simp] theorem lirCount_nil (es : ℕ → Entry) : lirCount es [] = 0 := rfl

theorem lirCount_cons (es : ℕ → Entry) (k : ℕ) (l : List ℕ) :
    lirCount es (k :: l) = (if residentLIR es k then 1 else 0) + lirCount es l := by
  simp only [lirCount, List.filter_cons]
  split <;> simp [Nat.add_comm]

theorem lirCount_append (es : ℕ → Entry) (l₁ l₂ : List ℕ) :
    lirCount es (l₁ ++ l₂) = lirCount es l₁ + lirCount es l₂ := by
  simp [lirCount, List.filter_append]

theorem lirCount_congr {es₁ es₂ : ℕ → Entry} {l : List ℕ}
    (h : ∀ k ∈ l, es₁ k = es₂ k) : lirCount es₁ l = lirCount es₂ l := by
  unfold lirCount
  congr 1
  apply List.filter_congr
  intro k hk
  simp only [residentLIR, h k hk]

theorem lirCount_updEntries_not_mem {es : ℕ → Entry} {l : List ℕ} {key : ℕ}
    (e : Entry) (h : key ∉ l) : lirCount (updEntries es key e) l = lirCount es l :=
  lirCount_congr fun k hk => updEntries_ne es e (fun hkk => h (hkk ▸ hk))

theorem lirCount_perm (es : ℕ → Entry) {l₁ l₂ : List ℕ} (h : l₁.Perm l₂) :
    lirCount es l₁ = lirCount es l₂ :=
  (h.filter (residentLIR es)).length_eq

theorem lirCount_erase (es : ℕ → Entry) {l : List ℕ} {a : ℕ} (h : a ∈ l) :
    lirCount es l = (if residentLIR es a then 1 else 0) + lirCount es (l.erase a) := by
  rw [lirCount_perm es (List.perm_cons_erase h), lirCount_cons]

theorem lirCount_le_length (es : ℕ → Entry) (l : List ℕ) :
    lirCount es l ≤ l.length :=
  List.length_filter_le _ _

theorem lirCount_pos_of_head {es : ℕ → Entry} {k : ℕ} {rest : List ℕ}
    (hLIR : (es k).flag = Flag.LIR) (hres : (es k).resident = true) :
    1 ≤ lirCount es (k :: rest) := by
  rw [lirCount_cons, if_pos ((residentLIR_iff es k).2 ⟨hLIR, hres⟩)]
  omega

/-- When fewer than `l.length` keys are counted, some key of `l` is not a
resident LIR. -/
theorem exists_not_residentLIR {es : ℕ → Entry} {l : List ℕ}
    (h : lirCount es l < l.length) : ∃ k ∈ l, ¬ residentLIR es k = true := by
  by_contra hall
  push_neg at hall
  have : l.filter (residentLIR es) = l := List.filter_eq_self.2 hall
  rw [lirCount, this] at h
  omega

/-! ## Characterizations of the primitive queue operations -/

theorem removeFromS_ok (s : LIRS) (entry : Entry) (h : entry.key ∈ s.S) :
    s.removeFromS entry =
      .ok { s with
            S := s.S.erase entry.key
            lirs := if entry.flag = Flag.LIR ∧ entry.resident then s.lirs - 1 else s.lirs } := by
  simp [LIRS.removeFromS, h]

theorem removeFromQ_ok (s : LIRS) (entry : Entry) (h : entry.key ∈ s.Q)
    (hres : entry.resident = true) :
    s.removeFromQ entry = .ok { s with Q := s.Q.erase entry.key, hirs := s.hirs - 1 } := by
  simp [LIRS.removeFromQ, h, hres]

theorem addSentryMRU_not_mem (s : LIRS) (key : ℕ) (entry : Entry) (h : key ∉ s.S) :
    s.addSentryMRU key entry =
      { s with
        S := s.S ++ [key]
        entries := updEntries s.entries key entry
        lirs := if entry.flag = Flag.LIR ∧ entry.resident then s.lirs + 1 else s.lirs } := by
  simp [LIRS.addSentryMRU, h]

theorem addQentryMRU_not_mem (s : LIRS) (key : ℕ) (entry : Entry) (h : key ∉ s.Q) :
    s.addQentryMRU key entry =
      { s with
        Q := s.Q ++ [key]
        entries := updEntries s.entries key entry
        hirs := s.hirs + 1 } := by
  simp [LIRS.addQentryMRU, h]

/-- `evictQentryLRU` under the conditions that make it succeed. -/
theorem evictQentryLRU_ok (s : LIRS) {q0 : ℕ} {qrest : List ℕ}
    (hQ : s.Q = q0 :: qrest)
    (hguard : (s.hirs : ℚ) ≥ s.maxhirs)
    (hflag : (s.entries q0).flag = Flag.HIR)
    (hres : (s.entries q0).resident = true)
    (hpost : ((s.hirs - 1 : ℤ) : ℚ) ≤ s.maxhirs) :
    s.evictQentryLRU =
      .ok { s with
            Q := qrest
            hirs := s.hirs - 1
            entries := updEntries s.entries q0 { s.entries q0 with resident := false } } := by
  have hp2 : (s.hirs : ℚ) ≤ s.maxhirs + 1 := by push_cast at hpost; linarith
  simp [LIRS.evictQentryLRU, hguard, LIRS.popQentryLRU, hQ, hflag, hres, hpost, hp2]

/-- `migrateLIRtoHIR` under the conditions that make it succeed. -/
theorem migrateLIRtoHIR_ok (s : LIRS) {m : ℕ} {mrest : List ℕ}
    (hS : s.S = m :: mrest)
    (hkey : (s.entries m).key = m)
    (hflag : (s.entries m).flag = Flag.LIR)
    (hres : (s.entries m).resident = true)
    (hmQ : m ∉ s.Q) :
    s.migrateLIRtoHIR =
      .ok { s with
            S := mrest
            lirs := s.lirs - 1
            Q := s.Q ++ [m]
            hirs := s.hirs + 1
            entries := updEntries s.entries m { s.entries m with flag := Flag.HIR } } := by
  simp [LIRS.migrateLIRtoHIR, LIRS.popSentryLRU, hS, hkey, hflag, hres,
        LIRS.addQentryMRU, hmQ]

/-- The prune predicate: drop the LRU of S while its flag is HIR. -/
def isHIRkey (es : ℕ → Entry) (k : ℕ) : Bool := (es k).flag == Flag.HIR

theorem pruneGo_ok (es : ℕ → Entry) (q : List ℕ) (l : List ℕ) (lirs : ℤ)
    (hkeys : ∀ k ∈ l, (es k).key = k)
    (hq : ∀ k ∈ l, (es k).flag = Flag.HIR → ((es k).resident = true ↔ k ∈ q)) :
    pruneGo es q l lirs = .ok (l.dropWhile (isHIRkey es), lirs) := by
  induction l with
  | nil => simp [pruneGo]
  | cons k rest ih =>
      by_cases hf : (es k).flag = Flag.LIR
      · have : isHIRkey es k = false := by simp [isHIRkey, hf]
        simp [pruneGo, hf, List.dropWhile, this]
      · have hHIR : (es k).flag = Flag.HIR := by
          cases hfk : (es k).flag
          · exact absurd hfk hf
          · rfl
        have hdk : isHIRkey es k = true := by simp [isHIRkey, hHIR]
        have hkk : (es k).key = k := hkeys k (by simp)
        have hres := hq k (by simp) hHIR
        have ihh := ih (fun a ha => hkeys a (by simp [ha]))
          (fun a ha hfa => hq a (by simp [ha]) hfa)
        cases hr : (es k).resident with
        | true =>
            have hkq : k ∈ q := hres.1 hr
            simp [pruneGo, hf, hkk, hHIR, hr, hkq, List.dropWhile, hdk, ihh]
        | false =>
            have hkq : k ∉ q := fun hmem => by simp [hres.2 hmem] at hr
            simp [pruneGo, hf, hkk, hHIR, hr, hkq, List.dropWhile, hdk, ihh]

/-- `prune` under the invariant conditions: only S and `pruneCount` change,
and S loses exactly its maximal all-HIR LRU prefix. -/
theorem prune_ok (s : LIRS)
    (hkeys : ∀ k ∈ s.S, (s.entries k).key = k)
    (hq : ∀ k ∈ s.S, (s.entries k).flag = Flag.HIR →
      ((s.entries k).resident = true ↔ k ∈ s.Q)) :
    s.prune = .ok { s with
                    S := s.S.dropWhile (isHIRkey s.entries)
                    pruneCount := s.pruneCount + 1 } := by
  simp [LIRS.prune, pruneGo_ok s.entries s.Q s.S s.lirs hkeys hq]
/-! ## Facts about `dropWhile` (prune) and `removeFirstHIR` (shrink) -/

theorem dropWhile_sublist' (p : ℕ → Bool) (l : List ℕ) : List.Sublist (l.dropWhile p) l := by
  induction l with
  | nil => simp
  | cons k rest ih =>
      rw [List.dropWhile]
      cases p k with
      | true => exact ih.trans (List.sublist_cons_self k rest)
      | false => simp

theorem dropWhile_head_false (p : ℕ → Bool) (l : List ℕ) :
    ∀ k ∈ (l.dropWhile p).take 1, p k = false := by
  induction l with
  | nil => simp
  | cons a rest ih =>
      rw [List.dropWhile]
      cases hp : p a with
      | true => exact ih
      | false => intro k hk; simp at hk; simpa [hk] using hp

theorem lirCount_dropWhile_isHIR (es : ℕ → Entry) (l : List ℕ) :
    lirCount es (l.dropWhile (isHIRkey es)) = lirCount es l := by
  induction l with
  | nil => rfl
  | cons k rest ih =>
      rw [List.dropWhile]
      cases hk : isHIRkey es k with
      | true =>
          have : residentLIR es k = false := by
            simp only [isHIRkey, beq_iff_eq] at hk
            simp [residentLIR, hk]
          simp only [ih, lirCount_cons, this]
          simp
      | false => simp

theorem removeFirstHIR_sublist (es : ℕ → Entry) (l : List ℕ) :
    List.Sublist (removeFirstHIR es l) l := by
  induction l with
  | nil => simp [removeFirstHIR]
  | cons k rest ih =>
      rw [removeFirstHIR]
      split
      · exact List.sublist_cons_self k rest
      · exact ih.cons₂ k

theorem length_removeFirstHIR (es : ℕ → Entry) (l : List ℕ)
    (h : ∃ k ∈ l, (es k).flag = Flag.HIR) :
    (removeFirstHIR es l).length + 1 = l.length := by
  induction l with
  | nil => simp at h
  | cons k rest ih =>
      rw [removeFirstHIR]
      by_cases hk : (es k).flag = Flag.HIR
      · simp [hk]
      · have : ∃ a ∈ rest, (es a).flag = Flag.HIR := by
          obtain ⟨a, ha, hfa⟩ := h
          rcases List.mem_cons.1 ha with rfl | ha2
          · exact absurd hfa hk
          · exact ⟨a, ha2, hfa⟩
        simp only [if_neg hk, List.length_cons, ih this]

theorem lirCount_removeFirstHIR (es : ℕ → Entry) (l : List ℕ) :
    lirCount es (removeFirstHIR es l) = lirCount es l := by
  induction l with
  | nil => rfl
  | cons k rest ih =>
      rw [removeFirstHIR]
      by_cases hk : (es k).flag = Flag.HIR
      · have : residentLIR es k = false := by simp [residentLIR, hk]
        simp [lirCount_cons, this, hk]
      · simp [lirCount_cons, ih, hk]

theorem shrink_noop (s : LIRS) (h : (s.S.length : ℚ) ≤ s.maxSlength) :
    s.shrink = .ok s := by
  simp [LIRS.shrink, not_lt.2 h, h]

theorem shrink_remove (s : LIRS) (hover : s.maxSlength < (s.S.length : ℚ))
    (hlen : ((removeFirstHIR s.entries s.S).length : ℚ) ≤ s.maxSlength) :
    s.shrink = .ok { s with S := removeFirstHIR s.entries s.S } := by
  simp [LIRS.shrink, hover, hlen]

/-! ## The inductive invariant -/

/-- The inductive invariant of the LIRS engine: what holds of the state
after `__init__` and after every successful `processReference`. -/
structure Inv (s : LIRS) : Prop where
  nodupS : s.S.Nodup
  nodupQ : s.Q.Nodup
  hirsEq : s.hirs = (s.Q.length : ℤ)
  lirsEq : s.lirs = (lirCount s.entries s.S : ℤ)
  keysS : ∀ k ∈ s.S, (s.entries k).key = k
  keysQ : ∀ k ∈ s.Q, (s.entries k).key = k
  qHIR : ∀ k ∈ s.Q, (s.entries k).flag = Flag.HIR
  qRes : ∀ k ∈ s.Q, (s.entries k).resident = true
  sLIRres : ∀ k ∈ s.S, (s.entries k).flag = Flag.LIR → (s.entries k).resident = true
  sHIRq : ∀ k ∈ s.S, (s.entries k).flag = Flag.HIR →
    ((s.entries k).resident = true ↔ k ∈ s.Q)
  bottomLIR : ∀ k ∈ s.S.take 1, (s.entries k).flag = Flag.LIR
  qLirs : s.Q = [] ∨ 1 ≤ s.lirs
  hirsLe : s.hirs ≤ ⌈s.maxhirs⌉
  lirsLe : s.lirs ≤ ⌈s.maxlirs⌉
  sLen : (s.S.length : ℚ) ≤ s.maxSlength

theorem inv_def (s : LIRS) : Inv s ↔
    (s.S.Nodup ∧ s.Q.Nodup ∧ s.hirs = (s.Q.length : ℤ) ∧
     s.lirs = (lirCount s.entries s.S : ℤ) ∧
     (∀ k ∈ s.S, (s.entries k).key = k) ∧ (∀ k ∈ s.Q, (s.entries k).key = k) ∧
     (∀ k ∈ s.Q, (s.entries k).flag = Flag.HIR) ∧
     (∀ k ∈ s.Q, (s.entries k).resident = true) ∧
     (∀ k ∈ s.S, (s.entries k).flag = Flag.LIR → (s.entries k).resident = true) ∧
     (∀ k ∈ s.S, (s.entries k).flag = Flag.HIR →
       ((s.entries k).resident = true ↔ k ∈ s.Q)) ∧
     (∀ k ∈ s.S.take 1, (s.entries k).flag = Flag.LIR) ∧
     (s.Q = [] ∨ 1 ≤ s.lirs) ∧
     s.hirs ≤ ⌈s.maxhirs⌉ ∧ s.lirs ≤ ⌈s.maxlirs⌉ ∧
     ((s.S.length : ℚ) ≤ s.maxSlength)) := by
  constructor
  · intro h
    exact ⟨h.nodupS, h.nodupQ, h.hirsEq, h.lirsEq, h.keysS, h.keysQ, h.qHIR, h.qRes,
      h.sLIRres, h.sHIRq, h.bottomLIR, h.qLirs, h.hirsLe, h.lirsLe, h.sLen⟩
  · rintro ⟨a1, a2, a3, a4, a5, a6, a7, a8, a9, a10, a11, a12, a13, a14, a15⟩
    exact ⟨a1, a2, a3, a4, a5, a6, a7, a8, a9, a10, a11, a12, a13, a14, a15⟩

instance (s : LIRS) : Decidable (Inv s) :=
  decidable_of_iff _ (inv_def s).symm

/-- The static facts about the configuration constants, established by
`__init__` for `cacheSize ≥ 200`, `sizeLimitFactor ≥ 1`,
`hirPercent ∈ [1, 99]`, and never mutated afterwards. -/
structure Params (s : LIRS) : Prop where
  mh2 : 2 ≤ s.maxhirs
  mlEq : s.maxlirs = (s.c : ℚ) - s.maxhirs
  ml1 : 1 ≤ s.maxlirs
  msl : (s.c : ℚ) ≤ s.maxSlength

theorem params_def (s : LIRS) : Params s ↔
    (2 ≤ s.maxhirs ∧ s.maxlirs = (s.c : ℚ) - s.maxhirs ∧ 1 ≤ s.maxlirs ∧
     (s.c : ℚ) ≤ s.maxSlength) := by
  constructor
  · intro h; exact ⟨h.mh2, h.mlEq, h.ml1, h.msl⟩
  · rintro ⟨a, b, c, d⟩; exact ⟨a, b, c, d⟩

instance (s : LIRS) : Decidable (Params s) :=
  decidable_of_iff _ (params_def s).symm

/-! ### Derived facts -/

theorem Inv.hirsNonneg {s : LIRS} (h : Inv s) : 0 ≤ s.hirs := by
  rw [h.hirsEq]; positivity

theorem Inv.lirsNonneg {s : LIRS} (h : Inv s) : 0 ≤ s.lirs := by
  rw [h.lirsEq]; positivity

theorem Inv.S_ne_nil_of_lirs_pos {s : LIRS} (h : Inv s) (hl : 1 ≤ s.lirs) :
    s.S ≠ [] := by
  intro hS
  rw [h.lirsEq, hS] at hl
  simp [lirCount] at hl

theorem Inv.LIR_not_mem_Q {s : LIRS} (h : Inv s) {k : ℕ}
    (hf : (s.entries k).flag = Flag.LIR) : k ∉ s.Q := by
  intro hk
  rw [h.qHIR k hk] at hf
  cases hf

/-- The head (LRU) of a non-empty S is a resident LIR entry. -/
theorem Inv.head_LIR {s : LIRS} (h : Inv s) {k : ℕ} {rest : List ℕ}
    (hS : s.S = k :: rest) :
    (s.entries k).flag = Flag.LIR ∧ (s.entries k).resident = true := by
  have hmem : k ∈ s.S.take 1 := by rw [hS]; simp
  have hf := h.bottomLIR k hmem
  exact ⟨hf, h.sLIRres k (by rw [hS]; simp) hf⟩

theorem flag_HIR_of_ne_LIR {e : Entry} (h : ¬ e.flag = Flag.LIR) :
    e.flag = Flag.HIR := by
  cases hf : e.flag
  · exact absurd hf h
  · rfl

theorem Params.Q_ne_nil_of_hirs_ge {s : LIRS} (hP : Params s) (hI : Inv s)
    (h : (s.hirs : ℚ) ≥ s.maxhirs) : s.Q ≠ [] := by
  intro hQ
  rw [hI.hirsEq, hQ] at h
  simp only [List.length_nil, Nat.cast_zero, Int.cast_zero] at h
  have := hP.mh2
  linarith

/-- `lirs < maxlirs` over ℚ gives `lirs + 1 ≤ ⌈maxlirs⌉` over ℤ. -/
theorem add_one_le_ceil_of_cast_lt {z : ℤ} {q : ℚ} (h : (z : ℚ) < q) :
    z + 1 ≤ ⌈q⌉ := by
  have : z < ⌈q⌉ := Int.lt_ceil.2 h
  omega

/-- `hirs ≤ ⌈maxhirs⌉` gives `hirs - 1 ≤ maxhirs` over ℚ. -/
theorem cast_sub_one_le_of_le_ceil {z : ℤ} {q : ℚ} (h : z ≤ ⌈q⌉) :
    ((z - 1 : ℤ) : ℚ) ≤ q := by
  have h1 : (z : ℚ) ≤ (⌈q⌉ : ℚ) := by exact_mod_cast h
  have h2 : (⌈q⌉ : ℚ) < q + 1 := Int.ceil_lt_add_one q
  push_cast
  linarith

/-! ## The mid-reference state, just before the common tail (line 125) -/

/-- What holds after the dispatch on `key` (lines 72-124) and before
`addSentryMRU`/assert/shrink (lines 125-136), about the state `s` and the
entry object about to be reinserted at the MRU of S. -/
structure Mid (s : LIRS) (key : ℕ) (entry : Entry) : Prop where
  nodupS : s.S.Nodup
  nodupQ : s.Q.Nodup
  keyNotS : key ∉ s.S
  hirsEq : s.hirs = (s.Q.length : ℤ)
  lirsEq : s.lirs = (lirCount s.entries s.S : ℤ)
  keysS : ∀ k ∈ s.S, (s.entries k).key = k
  keysQ : ∀ k ∈ s.Q, (s.entries k).key = k
  qHIR : ∀ k ∈ s.Q, (s.entries k).flag = Flag.HIR
  qRes : ∀ k ∈ s.Q, (s.entries k).resident = true
  sLIRres : ∀ k ∈ s.S, (s.entries k).flag = Flag.LIR → (s.entries k).resident = true
  sHIRq : ∀ k ∈ s.S, (s.entries k).flag = Flag.HIR →
    ((s.entries k).resident = true ↔ k ∈ s.Q)
  bottomLIR : ∀ k ∈ s.S.take 1, (s.entries k).flag = Flag.LIR
  entryKey : entry.key = key
  entryRes : entry.resident = true
  entryLIRQ : entry.flag = Flag.LIR → key ∉ s.Q
  entryHIRQ : entry.flag = Flag.HIR → key ∈ s.Q ∧ s.S ≠ []
  hirsLe : s.hirs ≤ ⌈s.maxhirs⌉
  lirsLe : s.lirs + (if entry.flag = Flag.LIR then 1 else 0) ≤ ⌈s.maxlirs⌉
  sLen : (s.S.length : ℚ) ≤ s.maxSlength

theorem removeFirstHIR_append_singleton (es : ℕ → Entry) (l : List ℕ) (key : ℕ)
    (h : ∃ a ∈ l, (es a).flag = Flag.HIR) :
    removeFirstHIR es (l ++ [key]) = removeFirstHIR es l ++ [key] := by
  induction l with
  | nil => simp at h
  | cons k rest ih =>
      by_cases hk : (es k).flag = Flag.HIR
      · simp [removeFirstHIR, hk]
      · have : ∃ a ∈ rest, (es a).flag = Flag.HIR := by
          obtain ⟨a, ha, hfa⟩ := h
          rcases List.mem_cons.1 ha with rfl | ha2
          · exact absurd hfa hk
          · exact ⟨a, ha2, hfa⟩
        simp [removeFirstHIR, hk, ih this]

/-- Rebuilding the invariant for the state produced by the common tail:
S has become `S3` (a sublist of `S ++ [key]` with unchanged LIR count, a
LIR head and bounded length), the entry store was updated at `key`, and
`lirs` was bumped when the entry is LIR. -/
theorem inv_after_tail (s : LIRS) (key : ℕ) (entry : Entry)
    (hP : Params s) (hM : Mid s key entry)
    (S3 : List ℕ) (R M : ℕ)
    (hsub : List.Sublist S3 (s.S ++ [key]))
    (hcount : lirCount (updEntries s.entries key entry) S3 =
      lirCount s.entries s.S + (if entry.flag = Flag.LIR then 1 else 0))
    (hhead3 : ∀ k ∈ S3.take 1, ((updEntries s.entries key entry) k).flag = Flag.LIR)
    (hlen3 : (S3.length : ℚ) ≤ s.maxSlength) :
    Inv { s with
          S := S3
          entries := updEntries s.entries key entry
          lirs := s.lirs + (if entry.flag = Flag.LIR then 1 else 0)
          recordLirs := R
          misses := M } := by
  have keyS := hM.keyNotS
  have hes'S : ∀ k ∈ s.S, updEntries s.entries key entry k = s.entries k := fun k hk =>
    updEntries_ne s.entries entry (fun h => keyS (h ▸ hk))
  have hes'key : updEntries s.entries key entry key = entry := updEntries_self _ _ _
  have hnodup2 : (s.S ++ [key]).Nodup := by
    rw [List.nodup_append]
    refine ⟨hM.nodupS, by simp, ?_⟩
    intro x hx hy
    simp only [List.mem_singleton] at hy
    subst hy
    exact keyS hx
  have hmem3 : ∀ x ∈ S3, x ∈ s.S ∨ x = key := by
    intro x hx
    rcases List.mem_append.1 (hsub.subset hx) with h | h
    · exact Or.inl h
    · exact Or.inr (by simpa using h)
  have hflagKeyQ : key ∈ s.Q → entry.flag = Flag.HIR := by
    intro hkQ
    rcases hf : entry.flag
    · exact absurd hkQ (hM.entryLIRQ hf)
    · rfl
  constructor
  all_goals try dsimp only
  case nodupS => exact List.Nodup.sublist hsub hnodup2
  case nodupQ => exact hM.nodupQ
  case hirsEq => exact hM.hirsEq
  case lirsEq =>
    show s.lirs + _ = _
    rw [hcount, hM.lirsEq]
    rcases hf : entry.flag <;> simp [hf]
  case keysS =>
    intro k hk
    rcases hmem3 k hk with h | h
    · rw [hes'S k h]; exact hM.keysS k h
    · subst h; rw [hes'key]; exact hM.entryKey
  case keysQ =>
    intro k hk
    by_cases h : k = key
    · subst h; rw [hes'key]; exact hM.entryKey
    · rw [updEntries_ne s.entries entry h]; exact hM.keysQ k hk
  case qHIR =>
    intro k hk
    by_cases h : k = key
    · subst h; rw [hes'key]; exact hflagKeyQ hk
    · rw [updEntries_ne s.entries entry h]; exact hM.qHIR k hk
  case qRes =>
    intro k hk
    by_cases h : k = key
    · subst h; rw [hes'key]; exact hM.entryRes
    · rw [updEntries_ne s.entries entry h]; exact hM.qRes k hk
  case sLIRres =>
    intro k hk
    rcases hmem3 k hk with h | h
    · rw [hes'S k h]; exact hM.sLIRres k h
    · subst h; rw [hes'key]; intro _; exact hM.entryRes
  case sHIRq =>
    intro k hk hf
    rcases hmem3 k hk with h | h
    · rw [hes'S k h] at hf ⊢
      exact hM.sHIRq k h hf
    · subst h
      rw [hes'key] at hf ⊢
      have hkQ := (hM.entryHIRQ hf).1
      simp [hM.entryRes, hkQ]
  case bottomLIR => exact hhead3
  case qLirs =>
    right
    show (1 : ℤ) ≤ s.lirs + _
    have h0 : 0 ≤ s.lirs := by rw [hM.lirsEq]; positivity
    rcases hf : entry.flag
    · simp only [hf, if_pos]
      omega
    · have hne := (hM.entryHIRQ hf).2
      rcases hSS : s.S with _ | ⟨b0, t0⟩
      · exact absurd hSS hne
      · have hb0 : (s.entries b0).flag = Flag.LIR := hM.bottomLIR b0 (by rw [hSS]; simp)
        have hb0r : (s.entries b0).resident = true :=
          hM.sLIRres b0 (by rw [hSS]; simp) hb0
        have hpos := @lirCount_pos_of_head s.entries b0 t0 hb0 hb0r
        have hl : (1 : ℤ) ≤ s.lirs := by
          rw [hM.lirsEq, hSS]
          exact_mod_cast hpos
        have hnn : (0 : ℤ) ≤ (if entry.flag = Flag.LIR then (1 : ℤ) else 0) := by positivity
        omega
  case hirsLe => exact hM.hirsLe
  case lirsLe => exact hM.lirsLe
  case sLen => exact hlen3

/-- The common tail (lines 125-136) succeeds from any mid-reference state
and restores the full invariant. -/
theorem refTail_spec (s : LIRS) (key : ℕ) (entry : Entry) (hit : Bool)
    (hP : Params s) (hM : Mid s key entry) :
    ∃ s', s.refTail key entry hit = .ok (s', hit) ∧ Inv s' ∧ Params s' ∧
      s'.Q = s.Q ∧ s'.hirs = s.hirs ∧
      s'.entries = updEntries s.entries key entry ∧
      s'.pruneCount = s.pruneCount ∧ s'.refs = s.refs ∧ s'.lastKey = s.lastKey ∧
      s'.misses = (if hit then s.misses else s.misses + 1) ∧
      key ∈ s'.S ∧ (∀ x ∈ s'.S, x ∈ s.S ∨ x = key) ∧
      s'.c = s.c ∧ s'.maxhirs = s.maxhirs ∧ s'.maxlirs = s.maxlirs ∧
      s'.maxSlength = s.maxSlength := by
  classical
  have keyS : key ∉ s.S := hM.keyNotS
  have hes'S : ∀ k ∈ s.S, updEntries s.entries key entry k = s.entries k := fun k hk =>
    updEntries_ne s.entries entry (fun h => keyS (h ▸ hk))
  have hes'key : updEntries s.entries key entry key = entry := updEntries_self _ _ _
  have hind : (if entry.flag = Flag.LIR ∧ entry.resident = true then s.lirs + 1 else s.lirs) =
      s.lirs + (if entry.flag = Flag.LIR then 1 else 0) := by
    rcases hf : entry.flag <;> simp [hM.entryRes, hf]
  obtain ⟨h0, rest2, hS2eq, hh0⟩ :
      ∃ h0 rest2, s.S ++ [key] = h0 :: rest2 ∧
        (updEntries s.entries key entry h0).flag = Flag.LIR := by
    rcases hSS : s.S with _ | ⟨b0, t0⟩
    · refine ⟨key, [], by simp, ?_⟩
      rw [hes'key]
      rcases hf : entry.flag
      · rfl
      · exact absurd hSS (hM.entryHIRQ hf).2
    · refine ⟨b0, t0 ++ [key], by simp, ?_⟩
      rw [hes'S b0 (by rw [hSS]; simp)]
      exact hM.bottomLIR b0 (by rw [hSS]; simp)
  have hcount2 : lirCount (updEntries s.entries key entry) (s.S ++ [key]) =
      lirCount s.entries s.S + (if entry.flag = Flag.LIR then 1 else 0) := by
    rw [lirCount_append, lirCount_congr hes'S]
    rcases hf : entry.flag <;>
      simp [lirCount_cons, residentLIR, hes'key, hf, hM.entryRes, lirCount]
  unfold LIRS.refTail
  rw [addSentryMRU_not_mem s key entry keyS, hind]
  by_cases hlen2 : (((s.S ++ [key]).length : ℕ) : ℚ) ≤ s.maxSlength
  · -- no shrink
    refine ⟨{ s with
              S := s.S ++ [key]
              entries := updEntries s.entries key entry
              lirs := s.lirs + (if entry.flag = Flag.LIR then 1 else 0)
              recordLirs := max s.recordLirs (s.S ++ [key]).length
              misses := if hit then s.misses else s.misses + 1 },
            ?_, ?_, ?_, rfl, rfl, rfl, rfl, rfl, rfl, rfl, ?_, ?_, rfl, rfl, rfl, rfl⟩
    · simp only [LIRS.peekSentryLRU, hS2eq]
      rw [if_pos hh0, ← hS2eq, shrink_noop _ (by simpa using hlen2)]
      rcases hit <;> simp [hS2eq]
    · exact inv_after_tail s key entry hP hM (s.S ++ [key]) _ _
        (List.Sublist.refl _) hcount2
        (by rw [hS2eq]; intro k hk; simp at hk; subst hk; exact hh0) hlen2
    · exact ⟨hP.mh2, hP.mlEq, hP.ml1, hP.msl⟩
    · simp
    · intro x hx
      rcases List.mem_append.1 hx with h | h
      · exact Or.inl h
      · exact Or.inr (by simpa using h)
  · -- shrink removes the first HIR of the old S; the appended key survives
    push_neg at hlen2
    have hc2 : (s.c : ℚ) < (((s.S ++ [key]).length : ℕ) : ℚ) := lt_of_le_of_lt hP.msl hlen2
    have hceil : ⌈s.maxlirs⌉ ≤ (s.c : ℤ) - 2 := by
      rw [hP.mlEq]
      refine Int.ceil_le.2 ?_
      push_cast
      have := hP.mh2
      linarith
    have hlirsc : (lirCount s.entries s.S : ℤ) ≤ (s.c : ℤ) - 2 := by
      have h1 : s.lirs + (if entry.flag = Flag.LIR then 1 else 0) ≤ (s.c : ℤ) - 2 :=
        le_trans hM.lirsLe hceil
      have h2 : (0 : ℤ) ≤ (if entry.flag = Flag.LIR then (1 : ℤ) else 0) := by positivity
      rw [hM.lirsEq] at h1
      omega
    have hSlong : (s.c : ℕ) ≤ s.S.length := by
      have hq : ((s.c : ℕ) : ℚ) < ((s.S.length + 1 : ℕ) : ℚ) := by
        simpa using hc2
      have := Nat.cast_lt (α := ℚ) |>.1 hq
      omega
    have hexS : ∃ a ∈ s.S, (s.entries a).flag = Flag.HIR := by
      have hlt : lirCount s.entries s.S < s.S.length := by
        have h3 : (lirCount s.entries s.S : ℤ) < (s.S.length : ℤ) := by
          have h4 : ((s.c : ℕ) : ℤ) ≤ (s.S.length : ℤ) := by exact_mod_cast hSlong
          have h5 : (200 : ℤ) ≤ (s.c : ℤ) ∨ True := Or.inr trivial
          omega
        exact_mod_cast h3
      obtain ⟨a, ha, hra⟩ := exists_not_residentLIR hlt
      refine ⟨a, ha, ?_⟩
      rcases hf : (s.entries a).flag
      · exact absurd ((residentLIR_iff s.entries a).2 ⟨hf, hM.sLIRres a ha hf⟩) hra
      · rfl
    have hexS' : ∃ a ∈ s.S, ((updEntries s.entries key entry) a).flag = Flag.HIR := by
      obtain ⟨a, ha, hfa⟩ := hexS
      exact ⟨a, ha, by rw [hes'S a ha]; exact hfa⟩
    have hsplit : removeFirstHIR (updEntries s.entries key entry) (s.S ++ [key]) =
        removeFirstHIR (updEntries s.entries key entry) s.S ++ [key] :=
      removeFirstHIR_append_singleton _ _ _ hexS'
    have hex2 : ∃ a ∈ s.S ++ [key], ((updEntries s.entries key entry) a).flag = Flag.HIR := by
      obtain ⟨a, ha, hfa⟩ := hexS'
      exact ⟨a, List.mem_append.2 (Or.inl ha), hfa⟩
    have hlenEq : (removeFirstHIR (updEntries s.entries key entry) (s.S ++ [key])).length
        = s.S.length := by
      have := length_removeFirstHIR _ _ hex2
      simp only [List.length_append, List.length_cons, List.length_nil] at this
      omega
    have hlenR : ((removeFirstHIR (updEntries s.entries key entry) (s.S ++ [key])).length : ℚ) ≤
        s.maxSlength := by
      rw [hlenEq]
      exact hM.sLen
    have hheadR : ∀ k ∈ (removeFirstHIR (updEntries s.entries key entry)
        (s.S ++ [key])).take 1, ((updEntries s.entries key entry) k).flag = Flag.LIR := by
      rw [hS2eq, removeFirstHIR]
      have hne : ¬ ((updEntries s.entries key entry) h0).flag = Flag.HIR := by
        rw [hh0]; intro hc; cases hc
      rw [if_neg hne]
      intro k hk
      simp only [List.take_succ_cons, List.take_zero, List.mem_singleton] at hk
      subst hk
      exact hh0
    refine ⟨{ s with
              S := removeFirstHIR (updEntries s.entries key entry) (s.S ++ [key])
              entries := updEntries s.entries key entry
              lirs := s.lirs + (if entry.flag = Flag.LIR then 1 else 0)
              recordLirs := max s.recordLirs
                (removeFirstHIR (updEntries s.entries key entry) (s.S ++ [key])).length
              misses := if hit then s.misses else s.misses + 1 },
            ?_, ?_, ?_, rfl, rfl, rfl, rfl, rfl, rfl, rfl, ?_, ?_, rfl, rfl, rfl, rfl⟩
    · simp only [LIRS.peekSentryLRU, hS2eq]
      rw [if_pos hh0, ← hS2eq,
          shrink_remove _ (by simpa using hlen2) (by simpa using hlenR)]
      rcases hit <;> simp
    · refine inv_after_tail s key entry hP hM _ _ _
        (removeFirstHIR_sublist _ _) ?_ hheadR hlenR
      rw [lirCount_removeFirstHIR, hcount2]
    · exact ⟨hP.mh2, hP.mlEq, hP.ml1, hP.msl⟩
    · rw [hsplit]; simp
    · intro x hx
      have hx2 := (removeFirstHIR_sublist (updEntries s.entries key entry)
        (s.S ++ [key])).subset hx
      rcases List.mem_append.1 hx2 with h | h
      · exact Or.inl h
      · exact Or.inr (by simpa using h)

/-! ## The dispatch cases (lines 72-124) -/

theorem nodup_append_singleton {l : List ℕ} {key : ℕ} (h : l.Nodup) (hk : key ∉ l) :
    (l ++ [key]).Nodup := by
  rw [List.nodup_append]
  refine ⟨h, by simp, ?_⟩
  intro x hx hy
  simp only [List.mem_singleton] at hy
  subst hy
  exact hk hx

theorem lirCount_congr_res {es₁ es₂ : ℕ → Entry} {l : List ℕ}
    (h : ∀ k ∈ l, residentLIR es₁ k = residentLIR es₂ k) :
    lirCount es₁ l = lirCount es₂ l := by
  unfold lirCount
  congr 1
  exact List.filter_congr h

/-- Case D, miss (lines 109-124): under the invariant a miss succeeds and
leads to a well-formed mid-reference state. -/
theorem refMiss_spec (s : LIRS) (key : ℕ) (hInv : Inv s) (hP : Params s)
    (hkS : key ∉ s.S) (hkQ : key ∉ s.Q) :
    ∃ s₁ entry, s.refMiss key = .ok (s₁, entry, false) ∧ Mid s₁ key entry ∧ Params s₁ := by
  classical
  by_cases hl : (s.lirs : ℚ) < s.maxlirs
  · -- `lirs < maxlirs`: the fresh entry becomes LIR, Q untouched
    refine ⟨s, { Entry.mkNew key with flag := Flag.LIR }, ?_, ?_, hP⟩
    · simp [LIRS.refMiss, hl]
    · refine ⟨hInv.nodupS, hInv.nodupQ, hkS, hInv.hirsEq, hInv.lirsEq, hInv.keysS,
        hInv.keysQ, hInv.qHIR, hInv.qRes, hInv.sLIRres, hInv.sHIRq, hInv.bottomLIR,
        rfl, rfl, fun _ => hkQ, ?_, hInv.hirsLe, ?_, hInv.sLen⟩
      · intro h; exact absurd h (by simp [Entry.mkNew])
      · simpa using add_one_le_ceil_of_cast_lt hl
  · -- `lirs >= maxlirs`: the fresh entry stays HIR and goes to the MRU of Q
    push_neg at hl
    have hlirs1 : 1 ≤ s.lirs := by
      have h1 : (1 : ℚ) ≤ (s.lirs : ℚ) := le_trans hP.ml1 hl
      exact_mod_cast h1
    have hSne : s.S ≠ [] := hInv.S_ne_nil_of_lirs_pos hlirs1
    have hnotlt : ¬ ((s.lirs : ℚ) < s.maxlirs) := not_lt.2 hl
    by_cases hh : (s.hirs : ℚ) ≥ s.maxhirs
    · -- make space in Q first
      rcases hQQ : s.Q with _ | ⟨q0, qrest⟩
      · exact absurd hQQ (hP.Q_ne_nil_of_hirs_ge hInv hh)
      have hq0Q : q0 ∈ s.Q := by rw [hQQ]; simp
      have hev := evictQentryLRU_ok s hQQ hh (hInv.qHIR q0 hq0Q) (hInv.qRes q0 hq0Q)
        (cast_sub_one_le_of_le_ceil hInv.hirsLe)
      have hkq1 : key ∉ qrest := fun h => hkQ (by rw [hQQ]; simp [h])
      have hq0rest : q0 ∉ qrest := by
        have h2 := hInv.nodupQ
        rw [hQQ] at h2
        exact (List.nodup_cons.1 h2).1
      have hkq0 : key ≠ q0 := fun h => hkQ (h ▸ hq0Q)
      refine ⟨{ s with
                Q := qrest ++ [key]
                hirs := s.hirs - 1 + 1
                entries := updEntries
                  (updEntries s.entries q0 { s.entries q0 with resident := false })
                  key (Entry.mkNew key) },
              Entry.mkNew key, ?_, ?_, ⟨hP.mh2, hP.mlEq, hP.ml1, hP.msl⟩⟩
      · simp only [LIRS.refMiss, hnotlt, if_false, hh, if_true, hev, LIRS.addQentryMRU,
          hkq1]
        simp [Entry.mkNew, hkq1]
      · have hQmem : ∀ k, k ∈ s.Q ↔ (k = q0 ∨ k ∈ qrest) := by
          intro k; rw [hQQ]; simp
        have hes2S : ∀ k ∈ s.S,
            updEntries (updEntries s.entries q0 { s.entries q0 with resident := false })
              key (Entry.mkNew key) k =
            updEntries s.entries q0 { s.entries q0 with resident := false } k := by
          intro k hk
          exact updEntries_ne _ _ (fun h => hkS (h ▸ hk))
        constructor
        all_goals try dsimp only
        · exact hInv.nodupS
        ·
          refine nodup_append_singleton ?_ hkq1
          have h2 := hInv.nodupQ
          rw [hQQ] at h2
          exact (List.nodup_cons.1 h2).2
        · exact hkS
        ·
          rw [hInv.hirsEq, hQQ]
          simp only [List.length_append, List.length_cons, List.length_nil]
          push_cast
          ring
        ·
          rw [hInv.lirsEq]
          congr 1
          refine lirCount_congr_res ?_
          intro k hk
          unfold residentLIR
          rw [hes2S k hk]
          by_cases h : k = q0
          · subst h
            rw [updEntries_self]
            simp [hInv.qHIR k hq0Q]
          · rw [updEntries_ne _ _ h]
        ·
          intro k hk
          rw [hes2S k hk]
          by_cases h : k = q0
          · subst h
            rw [updEntries_self]
            exact hInv.keysQ k hq0Q
          · rw [updEntries_ne _ _ h]
            exact hInv.keysS k hk
        ·
          intro k hk
          rcases List.mem_append.1 hk with h | h
          · have hkQ0 : k ∈ s.Q := (hQmem k).2 (Or.inr h)
            have hk1 : k ≠ key := fun hc => hkq1 (hc ▸ h)
            have hk0 : k ≠ q0 := fun hc => hq0rest (hc ▸ h)
            rw [updEntries_ne _ _ hk1, updEntries_ne _ _ hk0]
            exact hInv.keysQ k hkQ0
          · simp only [List.mem_singleton] at h
            subst h
            rw [updEntries_self]
            rfl
        ·
          intro k hk
          rcases List.mem_append.1 hk with h | h
          · have hk1 : k ≠ key := fun hc => hkq1 (hc ▸ h)
            have hk0 : k ≠ q0 := fun hc => hq0rest (hc ▸ h)
            rw [updEntries_ne _ _ hk1, updEntries_ne _ _ hk0]
            exact hInv.qHIR k ((hQmem k).2 (Or.inr h))
          · simp only [List.mem_singleton] at h
            subst h
            rw [updEntries_self]
            rfl
        ·
          intro k hk
          rcases List.mem_append.1 hk with h | h
          · have hk1 : k ≠ key := fun hc => hkq1 (hc ▸ h)
            have hk0 : k ≠ q0 := fun hc => hq0rest (hc ▸ h)
            rw [updEntries_ne _ _ hk1, updEntries_ne _ _ hk0]
            exact hInv.qRes k ((hQmem k).2 (Or.inr h))
          · simp only [List.mem_singleton] at h
            subst h
            rw [updEntries_self]
            rfl
        ·
          intro k hk
          rw [hes2S k hk]
          by_cases h : k = q0
          · subst h
            rw [updEntries_self]
            intro hf
            exact absurd hf (by simp [hInv.qHIR k hq0Q])
          · rw [updEntries_ne _ _ h]
            exact hInv.sLIRres k hk
        ·
          intro k hk
          rw [hes2S k hk]
          by_cases h : k = q0
          · subst h
            rw [updEntries_self]
            intro _
            constructor
            · intro hc; cases hc
            · intro hc
              rcases List.mem_append.1 hc with h2 | h2
              · exact absurd h2 hq0rest
              · simp only [List.mem_singleton] at h2
                exact absurd h2 (fun hc2 => hkq0 hc2.symm)
          · rw [updEntries_ne _ _ h]
            intro hf
            rw [hInv.sHIRq k hk hf, hQmem k]
            constructor
            · rintro (h2 | h2)
              · exact absurd h2 h
              · exact List.mem_append.2 (Or.inl h2)
            · intro h2
              rcases List.mem_append.1 h2 with h3 | h3
              · exact Or.inr h3
              · simp only [List.mem_singleton] at h3
                exact absurd h3 (fun hc => hkS (hc ▸ hk))
        ·
          intro k hk
          have hkS2 : k ∈ s.S := List.mem_of_mem_take hk
          have hfk := hInv.bottomLIR k hk
          rw [hes2S k hkS2]
          have h : k ≠ q0 := by
            intro hc
            subst hc
            rw [hInv.qHIR k hq0Q] at hfk
            cases hfk
          rw [updEntries_ne _ _ h]
          exact hfk
        · rfl
        · rfl
        ·
          intro h
          exact absurd h (by simp [Entry.mkNew])
        ·
          intro _
          exact ⟨List.mem_append.2 (Or.inr (by simp)), hSne⟩
        ·
          have h2 := hInv.hirsLe
          omega
        ·
          have h0 : ¬ ((Entry.mkNew key).flag = Flag.LIR) := by simp [Entry.mkNew]
          rw [if_neg h0]
          simpa using hInv.lirsLe
        · exact hInv.sLen
    · -- Q still has room: no eviction
      have hlt : (s.hirs : ℚ) < s.maxhirs := not_le.1 hh
      refine ⟨{ s with
                Q := s.Q ++ [key]
                hirs := s.hirs + 1
                entries := updEntries s.entries key (Entry.mkNew key) },
              Entry.mkNew key, ?_, ?_, ⟨hP.mh2, hP.mlEq, hP.ml1, hP.msl⟩⟩
      · simp only [LIRS.refMiss, hnotlt, if_false, hh, LIRS.addQentryMRU, hkQ]
        simp [Entry.mkNew, hkQ]
      · have hesS : ∀ k ∈ s.S,
            updEntries s.entries key (Entry.mkNew key) k = s.entries k := by
          intro k hk
          exact updEntries_ne _ _ (fun h => hkS (h ▸ hk))
        constructor
        all_goals try dsimp only
        · exact hInv.nodupS
        · exact nodup_append_singleton hInv.nodupQ hkQ
        · exact hkS
        ·
          rw [hInv.hirsEq]
          simp only [List.length_append, List.length_cons, List.length_nil]
          push_cast
          ring
        ·
          rw [hInv.lirsEq]
          congr 1
          exact (lirCount_congr hesS).symm
        ·
          intro k hk
          rw [hesS k hk]
          exact hInv.keysS k hk
        ·
          intro k hk
          rcases List.mem_append.1 hk with h | h
          · have hk1 : k ≠ key := by intro hc; subst hc; exact hkQ h
            rw [updEntries_ne _ _ hk1]
            exact hInv.keysQ k h
          · simp only [List.mem_singleton] at h
            subst h
            rw [updEntries_self]
            rfl
        ·
          intro k hk
          rcases List.mem_append.1 hk with h | h
          · have hk1 : k ≠ key := by intro hc; subst hc; exact hkQ h
            rw [updEntries_ne _ _ hk1]
            exact hInv.qHIR k h
          · simp only [List.mem_singleton] at h
            subst h
            rw [updEntries_self]
            rfl
        ·
          intro k hk
          rcases List.mem_append.1 hk with h | h
          · have hk1 : k ≠ key := by intro hc; subst hc; exact hkQ h
            rw [updEntries_ne _ _ hk1]
            exact hInv.qRes k h
          · simp only [List.mem_singleton] at h
            subst h
            rw [updEntries_self]
            rfl
        ·
          intro k hk
          rw [hesS k hk]
          exact hInv.sLIRres k hk
        ·
          intro k hk
          rw [hesS k hk]
          intro hf
          rw [hInv.sHIRq k hk hf]
          constructor
          · intro h2; exact List.mem_append.2 (Or.inl h2)
          · intro h2
            rcases List.mem_append.1 h2 with h3 | h3
            · exact h3
            · simp only [List.mem_singleton] at h3
              exact absurd h3 (fun hc => hkS (hc ▸ hk))
        ·
          intro k hk
          rw [hesS k (List.mem_of_mem_take hk)]
          exact hInv.bottomLIR k hk
        · rfl
        · rfl
        ·
          intro h
          exact absurd h (by simp [Entry.mkNew])
        ·
          intro _
          exact ⟨List.mem_append.2 (Or.inr (by simp)), hSne⟩
        · exact add_one_le_ceil_of_cast_lt hlt
        ·
          have h0 : ¬ ((Entry.mkNew key).flag = Flag.LIR) := by simp [Entry.mkNew]
          rw [if_neg h0]
          simpa using hInv.lirsLe
        · exact hInv.sLen

/-- Case C, hit in Q only (lines 99-108): the entry is touched to the MRU
of Q and will be reinserted into S by the tail. -/
theorem refInQ_spec (s : LIRS) (key : ℕ) (hInv : Inv s) (hP : Params s)
    (hkS : key ∉ s.S) (hkQ : key ∈ s.Q) :
    ∃ s₁ entry, s.refInQ key = .ok (s₁, entry, true) ∧ Mid s₁ key entry ∧ Params s₁ := by
  classical
  have hkey : (s.entries key).key = key := hInv.keysQ key hkQ
  have hres : (s.entries key).resident = true := hInv.qRes key hkQ
  have hfH : (s.entries key).flag = Flag.HIR := hInv.qHIR key hkQ
  have hkErase : key ∉ s.Q.erase key := hInv.nodupQ.not_mem_erase
  have hQ1 : 1 ≤ s.Q.length := List.length_pos.2 (List.ne_nil_of_mem hkQ)
  have hesEq : ∀ k, updEntries s.entries key (s.entries key) k = s.entries k := by
    intro k
    unfold updEntries
    split
    · next h => rw [h]
    · rfl
  have hSne : s.S ≠ [] := by
    rcases hInv.qLirs with h | h
    · exact absurd hkQ (by rw [h]; simp)
    · exact hInv.S_ne_nil_of_lirs_pos h
  refine ⟨{ s with
            Q := s.Q.erase key ++ [key]
            hirs := s.hirs - 1 + 1
            entries := updEntries s.entries key (s.entries key) },
          s.entries key, ?_, ?_, ⟨hP.mh2, hP.mlEq, hP.ml1, hP.msl⟩⟩
  · simp only [LIRS.refInQ, hkey, if_pos rfl, hres, hfH, and_self, if_true,
      LIRS.removeFromQ, LIRS.addQentryMRU]
    simp [hkey, hkQ, hres, hkErase]
  · constructor
    all_goals try dsimp only
    · exact hInv.nodupS
    · exact nodup_append_singleton (hInv.nodupQ.erase key) hkErase
    · exact hkS
    · rw [hInv.hirsEq]
      simp only [List.length_append, List.length_erase_of_mem hkQ,
        List.length_cons, List.length_nil]
      have : ((s.Q.length - 1 + (0 + 1) : ℕ) : ℤ) = (s.Q.length : ℤ) := by
        push_cast [Nat.sub_add_cancel hQ1]
        omega
      omega
    · rw [hInv.lirsEq]
      congr 1
      exact (lirCount_congr (fun k _ => hesEq k)).symm
    · intro k hk
      rw [hesEq k]
      exact hInv.keysS k hk
    · intro k hk
      rw [hesEq k]
      rcases List.mem_append.1 hk with h | h
      · exact hInv.keysQ k (List.erase_subset key s.Q h)
      · simp only [List.mem_singleton] at h
        subst h
        exact hkey
    · intro k hk
      rw [hesEq k]
      rcases List.mem_append.1 hk with h | h
      · exact hInv.qHIR k (List.erase_subset key s.Q h)
      · simp only [List.mem_singleton] at h
        subst h
        exact hfH
    · intro k hk
      rw [hesEq k]
      rcases List.mem_append.1 hk with h | h
      · exact hInv.qRes k (List.erase_subset key s.Q h)
      · simp only [List.mem_singleton] at h
        subst h
        exact hres
    · intro k hk
      rw [hesEq k]
      exact hInv.sLIRres k hk
    · intro k hk
      rw [hesEq k]
      intro hf
      rw [hInv.sHIRq k hk hf]
      have hkne : k ≠ key := fun hc => hkS (hc ▸ hk)
      constructor
      · intro h2
        exact List.mem_append.2 (Or.inl ((List.mem_erase_of_ne hkne).2 h2))
      · intro h2
        rcases List.mem_append.1 h2 with h3 | h3
        · exact List.erase_subset key s.Q h3
        · simp only [List.mem_singleton] at h3
          exact absurd h3 hkne
    · intro k hk
      rw [hesEq k]
      exact hInv.bottomLIR k hk
    · exact hkey
    · exact hres
    · intro h
      rw [hfH] at h
      cases h
    · intro _
      exact ⟨List.mem_append.2 (Or.inr (by simp)), hSne⟩
    · have := hInv.hirsLe
      omega
    · have h0 : ¬ ((s.entries key).flag = Flag.LIR) := by
        rw [hfH]
        intro hc
        cases hc
      rw [if_neg h0]
      simpa using hInv.lirsLe
    · exact hInv.sLen

/-- The HIR-promotion path of Case B (lines 86-94): make space in Q,
turn the entry into a resident LIR, demote the LRU of S (a LIR) to the
MRU of Q, prune.  `t` is the state after the entry was removed from S
(and, when it was resident, from Q). -/
theorem promoteHIRinS_spec (t : LIRS) (key : ℕ) (entry : Entry) (hit : Bool)
    (hP : Params t)
    (nodupS : t.S.Nodup) (nodupQ : t.Q.Nodup)
    (hirsEq : t.hirs = (t.Q.length : ℤ))
    (lirsEq : t.lirs = (lirCount t.entries t.S : ℤ))
    (keysS : ∀ k ∈ t.S, (t.entries k).key = k)
    (keysQ : ∀ k ∈ t.Q, (t.entries k).key = k)
    (qHIR : ∀ k ∈ t.Q, (t.entries k).flag = Flag.HIR)
    (qRes : ∀ k ∈ t.Q, (t.entries k).resident = true)
    (sLIRres : ∀ k ∈ t.S, (t.entries k).flag = Flag.LIR → (t.entries k).resident = true)
    (sHIRq : ∀ k ∈ t.S, (t.entries k).flag = Flag.HIR →
      ((t.entries k).resident = true ↔ k ∈ t.Q))
    (bottomLIR : ∀ k ∈ t.S.take 1, (t.entries k).flag = Flag.LIR)
    (hSne : t.S ≠ [])
    (keyNotS : key ∉ t.S) (keyNotQ : key ∉ t.Q)
    (entryKey : entry.key = key)
    (hirsLe : t.hirs ≤ ⌈t.maxhirs⌉)
    (lirsLe : t.lirs ≤ ⌈t.maxlirs⌉)
    (sLen : (t.S.length : ℚ) ≤ t.maxSlength) :
    ∃ s₁ m srest, t.S = m :: srest ∧
      t.promoteHIRinS key entry hit =
        .ok (s₁, { entry with flag := Flag.LIR, resident := true }, hit) ∧
      Mid s₁ key { entry with flag := Flag.LIR, resident := true } ∧ Params s₁ ∧
      (t.entries m).flag = Flag.LIR ∧
      s₁.Q.getLast? = some m ∧ m ∉ s₁.S ∧
      (s₁.entries m).flag = Flag.HIR ∧ (s₁.entries m).resident = true ∧
      s₁.pruneCount = t.pruneCount + 1 ∧
      s₁.refs = t.refs ∧ s₁.misses = t.misses ∧ s₁.lastKey = t.lastKey ∧
      s₁.c = t.c ∧ s₁.maxhirs = t.maxhirs ∧ s₁.maxlirs = t.maxlirs ∧
      s₁.maxSlength = t.maxSlength := by
  classical
  rcases hSS : t.S with _ | ⟨m, srest⟩
  · exact absurd hSS hSne
  have hm : m ∈ t.S := by rw [hSS]; simp
  have hmtake : m ∈ t.S.take 1 := by rw [hSS]; simp
  have hmLIR : (t.entries m).flag = Flag.LIR := bottomLIR m hmtake
  have hmres : (t.entries m).resident = true := sLIRres m hm hmLIR
  have hmkey : (t.entries m).key = m := keysS m hm
  have hmQ : m ∉ t.Q := fun h => by rw [qHIR m h] at hmLIR; cases hmLIR
  have hmkeyne : m ≠ key := fun h => keyNotS (h ▸ hm)
  have hmsrest : m ∉ srest := by
    have h2 := nodupS; rw [hSS] at h2; exact (List.nodup_cons.1 h2).1
  have hsrestN : srest.Nodup := by
    have h2 := nodupS; rw [hSS] at h2; exact (List.nodup_cons.1 h2).2
  have hkeysrest : key ∉ srest := fun h => keyNotS (by rw [hSS]; simp [h])
  have hsrestS : ∀ k ∈ srest, k ∈ t.S := by intro k hk; rw [hSS]; simp [hk]
  have lirCount_head : lirCount t.entries t.S = 1 + lirCount t.entries srest := by
    rw [hSS, lirCount_cons, if_pos ((residentLIR_iff _ _).2 ⟨hmLIR, hmres⟩)]
  by_cases hh : (t.hirs : ℚ) ≥ t.maxhirs
  · -- eviction makes space in Q first
    rcases hQQ : t.Q with _ | ⟨q0, qrest⟩
    · exfalso
      rw [hirsEq, hQQ] at hh
      simp only [List.length_nil, Nat.cast_zero, Int.cast_zero] at hh
      have := hP.mh2
      linarith
    have hq0Q : q0 ∈ t.Q := by rw [hQQ]; simp
    have hq0H : (t.entries q0).flag = Flag.HIR := qHIR q0 hq0Q
    have hq0R : (t.entries q0).resident = true := qRes q0 hq0Q
    have hq0key : (t.entries q0).key = q0 := keysQ q0 hq0Q
    have hq0m : q0 ≠ m := fun h => by rw [h, hmLIR] at hq0H; cases hq0H
    have hmq0 : m ≠ q0 := fun h => hq0m h.symm
    have hq0keyne : q0 ≠ key := fun h => keyNotQ (h ▸ hq0Q)
    have hq0rest : q0 ∉ qrest := by
      have h2 := nodupQ; rw [hQQ] at h2; exact (List.nodup_cons.1 h2).1
    have hqrestN : qrest.Nodup := by
      have h2 := nodupQ; rw [hQQ] at h2; exact (List.nodup_cons.1 h2).2
    have hqrestQ : ∀ k ∈ qrest, k ∈ t.Q := by intro k hk; rw [hQQ]; simp [hk]
    have hmqrest : m ∉ qrest := fun h => hmQ (hqrestQ m h)
    have hkeyqrest : key ∉ qrest := fun h => keyNotQ (hqrestQ key h)
    have hpost : ((t.hirs - 1 : ℤ) : ℚ) ≤ t.maxhirs := cast_sub_one_le_of_le_ceil hirsLe
    have hev := evictQentryLRU_ok t hQQ hh hq0H hq0R hpost
    -- the three entry-store layers
    set esE := updEntries t.entries q0 { t.entries q0 with resident := false } with hesE
    set entry2 : Entry := { entry with flag := Flag.LIR, resident := true } with hentry2
    set es2 := updEntries esE key entry2 with hes2
    have hesEk : ∀ k, k ≠ q0 → esE k = t.entries k := by
      intro k hk; rw [hesE]; exact updEntries_ne _ _ hk
    have hesEq0 : esE q0 = { t.entries q0 with resident := false } := by
      rw [hesE]; exact updEntries_self _ _ _
    have hes2k : ∀ k, k ≠ key → es2 k = esE k := by
      intro k hk; rw [hes2]; exact updEntries_ne _ _ hk
    have hes2key : es2 key = entry2 := by rw [hes2]; exact updEntries_self _ _ _
    have hes2m : es2 m = t.entries m := by
      rw [hes2k m hmkeyne, hesEk m hmq0]
    have hmig := @migrateLIRtoHIR_ok
      { t with Q := qrest, hirs := t.hirs - 1, entries := es2 }
      m srest hSS
      (by show (es2 m).key = m; rw [hes2m]; exact hmkey)
      (by show (es2 m).flag = Flag.LIR; rw [hes2m]; exact hmLIR)
      (by show (es2 m).resident = true; rw [hes2m]; exact hmres)
      (by show m ∉ qrest; exact hmqrest)
    set es4 := updEntries es2 m { es2 m with flag := Flag.HIR } with hes4
    have hes4k : ∀ k, k ≠ m → es4 k = es2 k := by
      intro k hk; rw [hes4]; exact updEntries_ne _ _ hk
    have hes4m : es4 m = { es2 m with flag := Flag.HIR } := by
      rw [hes4]; exact updEntries_self _ _ _
    have hes4srest : ∀ k ∈ srest, k ≠ q0 → es4 k = t.entries k := by
      intro k hk hkq
      rw [hes4k k (fun h => hmsrest (h ▸ hk)), hes2k k (fun h => hkeysrest (h ▸ hk)),
        hesEk k hkq]
    have hes4q0 : es4 q0 = { t.entries q0 with resident := false } := by
      rw [hes4k q0 hq0m, hes2k q0 hq0keyne, hesEq0]
    have hprune := prune_ok
      { t with
        Q := qrest ++ [m]
        hirs := t.hirs - 1 + 1
        entries := es4
        S := srest
        lirs := t.lirs - 1 }
      (by
        intro k hk
        by_cases hkq : k = q0
        · subst hkq
          show (es4 k).key = k
          rw [hes4q0]
          exact hq0key
        · show (es4 k).key = k
          rw [hes4srest k hk hkq]
          exact keysS k (hsrestS k hk))
      (by
        intro k hk
        by_cases hkq : k = q0
        · subst hkq
          show (es4 k).flag = Flag.HIR → ((es4 k).resident = true ↔ k ∈ qrest ++ [m])
          rw [hes4q0]
          intro _
          constructor
          · intro hc; cases hc
          · intro hc
            rcases List.mem_append.1 hc with h2 | h2
            · exact absurd h2 hq0rest
            · simp only [List.mem_singleton] at h2
              exact absurd h2 hq0m
        · show (es4 k).flag = Flag.HIR → ((es4 k).resident = true ↔ k ∈ qrest ++ [m])
          rw [hes4srest k hk hkq]
          intro hf
          rw [sHIRq k (hsrestS k hk) hf, hQQ]
          have hkm : k ≠ m := fun h => hmsrest (h ▸ hk)
          constructor
          · intro h2
            rcases List.mem_cons.1 h2 with h3 | h3
            · exact absurd h3 hkq
            · exact List.mem_append.2 (Or.inl h3)
          · intro h2
            rcases List.mem_append.1 h2 with h3 | h3
            · exact List.mem_cons.2 (Or.inr h3)
            · simp only [List.mem_singleton] at h3
              exact absurd h3 hkm)
    refine ⟨{ t with
              S := srest.dropWhile (isHIRkey es4)
              Q := qrest ++ [m]
              hirs := t.hirs - 1 + 1
              lirs := t.lirs - 1
              entries := es4
              pruneCount := t.pruneCount + 1 },
            m, srest, rfl, ?_, ?_, ?_, hmLIR, ?_, ?_, ?_, ?_, ?_, ?_, ?_, ?_,
      ?_, ?_, ?_, ?_⟩
    · -- the computation
      show LIRS.promoteHIRinS t key entry hit = _
      unfold LIRS.promoteHIRinS
      rw [if_pos hh, hev]
      show (if ((t.hirs - 1 : ℤ) : ℚ) ≤ t.maxhirs then _ else _) = _
      rw [if_pos hpost]
      simp only [hmig, hprune]
    · -- the mid-state facts
      constructor
      all_goals try dsimp only
      · exact List.Nodup.sublist (dropWhile_sublist' _ _) hsrestN
      · exact nodup_append_singleton hqrestN hmqrest
      · exact fun h => hkeysrest ((dropWhile_sublist' _ _).subset h)
      · rw [hirsEq, hQQ]
        simp only [List.length_append, List.length_cons, List.length_nil]
        push_cast
        ring
      · -- lirs bookkeeping
        rw [lirCount_dropWhile_isHIR]
        have hc : lirCount es4 srest = lirCount t.entries srest := by
          refine lirCount_congr_res ?_
          intro k hk
          unfold residentLIR
          by_cases hkq : k = q0
          · subst hkq
            rw [hes4q0]
            simp [hq0H]
          · rw [hes4srest k hk hkq]
        rw [hc, lirsEq, lirCount_head]
        push_cast
        ring
      · intro k hk
        have hk2 := (dropWhile_sublist' _ _).subset hk
        by_cases hkq : k = q0
        · subst hkq; rw [hes4q0]; exact hq0key
        · rw [hes4srest k hk2 hkq]; exact keysS k (hsrestS k hk2)
      · intro k hk
        rcases List.mem_append.1 hk with h | h
        · have hkm : k ≠ m := fun hc => hmqrest (hc ▸ h)
          have hkk : k ≠ key := fun hc => hkeyqrest (hc ▸ h)
          have hkq : k ≠ q0 := fun hc => hq0rest (hc ▸ h)
          rw [hes4k k hkm, hes2k k hkk, hesEk k hkq]
          exact keysQ k (hqrestQ k h)
        · simp only [List.mem_singleton] at h
          subst h
          rw [hes4m, hes2m]
          exact hmkey
      · intro k hk
        rcases List.mem_append.1 hk with h | h
        · have hkm : k ≠ m := fun hc => hmqrest (hc ▸ h)
          have hkk : k ≠ key := fun hc => hkeyqrest (hc ▸ h)
          have hkq : k ≠ q0 := fun hc => hq0rest (hc ▸ h)
          rw [hes4k k hkm, hes2k k hkk, hesEk k hkq]
          exact qHIR k (hqrestQ k h)
        · simp only [List.mem_singleton] at h
          subst h
          rw [hes4m]
      · intro k hk
        rcases List.mem_append.1 hk with h | h
        · have hkm : k ≠ m := fun hc => hmqrest (hc ▸ h)
          have hkk : k ≠ key := fun hc => hkeyqrest (hc ▸ h)
          have hkq : k ≠ q0 := fun hc => hq0rest (hc ▸ h)
          rw [hes4k k hkm, hes2k k hkk, hesEk k hkq]
          exact qRes k (hqrestQ k h)
        · simp only [List.mem_singleton] at h
          subst h
          rw [hes4m, hes2m]
          exact hmres
      · intro k hk
        have hk2 := (dropWhile_sublist' _ _).subset hk
        by_cases hkq : k = q0
        · subst hkq
          rw [hes4q0]
          intro hf
          exact absurd hf (by simp [hq0H])
        · rw [hes4srest k hk2 hkq]
          exact sLIRres k (hsrestS k hk2)
      · intro k hk
        have hk2 := (dropWhile_sublist' _ _).subset hk
        by_cases hkq : k = q0
        · subst hkq
          rw [hes4q0]
          intro _
          constructor
          · intro hc; cases hc
          · intro hc
            rcases List.mem_append.1 hc with h2 | h2
            · exact absurd h2 hq0rest
            · simp only [List.mem_singleton] at h2
              exact absurd h2 hq0m
        · rw [hes4srest k hk2 hkq]
          intro hf
          rw [sHIRq k (hsrestS k hk2) hf, hQQ]
          have hkm : k ≠ m := fun h => hmsrest (h ▸ hk2)
          constructor
          · intro h2
            rcases List.mem_cons.1 h2 with h3 | h3
            · exact absurd h3 hkq
            · exact List.mem_append.2 (Or.inl h3)
          · intro h2
            rcases List.mem_append.1 h2 with h3 | h3
            · exact List.mem_cons.2 (Or.inr h3)
            · simp only [List.mem_singleton] at h3
              exact absurd h3 hkm
      · intro k hk
        have := dropWhile_head_false (isHIRkey es4) srest k hk
        have hk2 := (dropWhile_sublist' _ _).subset (List.mem_of_mem_take hk)
        unfold isHIRkey at this
        cases hfk : (es4 k).flag
        · rfl
        · rw [hfk] at this; simp at this
      · exact entryKey
      · intro _
        show key ∉ qrest ++ [m]
        intro hc
        rcases List.mem_append.1 hc with h2 | h2
        · exact hkeyqrest h2
        · simp only [List.mem_singleton] at h2
          exact hmkeyne h2.symm
      · intro hc
        simp [hentry2] at hc
      · omega
      · have hflag2 : entry2.flag = Flag.LIR := rfl
        rw [if_pos hflag2]
        omega
      · refine le_trans ?_ sLen
        have h1 : (srest.dropWhile (isHIRkey es4)).length ≤ srest.length :=
          (dropWhile_sublist' _ _).length_le
        have h2 : (srest.length + 1 : ℕ) = t.S.length := by rw [hSS]; rfl
        have h3 : ((srest.dropWhile (isHIRkey es4)).length : ℚ) ≤ (t.S.length : ℚ) := by
          have : (srest.dropWhile (isHIRkey es4)).length ≤ t.S.length := by omega
          exact_mod_cast this
        exact h3
    · exact ⟨hP.mh2, hP.mlEq, hP.ml1, hP.msl⟩
    · show (qrest ++ [m]).getLast? = some m
      simp
    · show m ∉ srest.dropWhile (isHIRkey es4)
      exact fun h => hmsrest ((dropWhile_sublist' _ _).subset h)
    · show (es4 m).flag = Flag.HIR
      rw [hes4m]
    · show (es4 m).resident = true
      rw [hes4m]
      show (es2 m).resident = true
      rw [hes2m]
      exact hmres
    · rfl
    · rfl
    · rfl
    · rfl
    · rfl
    · rfl
    · rfl
    · rfl
  · -- no eviction needed
    have hlt : (t.hirs : ℚ) < t.maxhirs := not_le.1 hh
    have hle : (t.hirs : ℚ) ≤ t.maxhirs := le_of_lt hlt
    set entry2 : Entry := { entry with flag := Flag.LIR, resident := true } with hentry2
    set es2 := updEntries t.entries key entry2 with hes2
    have hes2k : ∀ k, k ≠ key → es2 k = t.entries k := by
      intro k hk; rw [hes2]; exact updEntries_ne _ _ hk
    have hes2m : es2 m = t.entries m := hes2k m hmkeyne
    have hmig := @migrateLIRtoHIR_ok
      { t with entries := es2 }
      m srest hSS
      (by show (es2 m).key = m; rw [hes2m]; exact hmkey)
      (by show (es2 m).flag = Flag.LIR; rw [hes2m]; exact hmLIR)
      (by show (es2 m).resident = true; rw [hes2m]; exact hmres)
      (by show m ∉ t.Q; exact hmQ)
    set es4 := updEntries es2 m { es2 m with flag := Flag.HIR } with hes4
    have hes4k : ∀ k, k ≠ m → es4 k = es2 k := by
      intro k hk; rw [hes4]; exact updEntries_ne _ _ hk
    have hes4m : es4 m = { es2 m with flag := Flag.HIR } := by
      rw [hes4]; exact updEntries_self _ _ _
    have hes4srest : ∀ k ∈ srest, es4 k = t.entries k := by
      intro k hk
      rw [hes4k k (fun h => hmsrest (h ▸ hk)), hes2k k (fun h => hkeysrest (h ▸ hk))]
    have hprune := prune_ok
      { t with
        Q := t.Q ++ [m]
        hirs := t.hirs + 1
        entries := es4
        S := srest
        lirs := t.lirs - 1 }
      (by
        intro k hk
        show (es4 k).key = k
        rw [hes4srest k hk]
        exact keysS k (hsrestS k hk))
      (by
        intro k hk
        show (es4 k).flag = Flag.HIR → ((es4 k).resident = true ↔ k ∈ t.Q ++ [m])
        rw [hes4srest k hk]
        intro hf
        rw [sHIRq k (hsrestS k hk) hf]
        have hkm : k ≠ m := fun h => hmsrest (h ▸ hk)
        constructor
        · intro h2
          exact List.mem_append.2 (Or.inl h2)
        · intro h2
          rcases List.mem_append.1 h2 with h3 | h3
          · exact h3
          · simp only [List.mem_singleton] at h3
            exact absurd h3 hkm)
    refine ⟨{ t with
              S := srest.dropWhile (isHIRkey es4)
              Q := t.Q ++ [m]
              hirs := t.hirs + 1
              lirs := t.lirs - 1
              entries := es4
              pruneCount := t.pruneCount + 1 },
            m, srest, rfl, ?_, ?_, ?_, hmLIR, ?_, ?_, ?_, ?_, ?_, ?_, ?_, ?_,
      ?_, ?_, ?_, ?_⟩
    · show LIRS.promoteHIRinS t key entry hit = _
      unfold LIRS.promoteHIRinS
      rw [if_neg hh]
      show (if (t.hirs : ℚ) ≤ t.maxhirs then _ else _) = _
      rw [if_pos hle]
      simp only [hmig, hprune]
    · constructor
      all_goals try dsimp only
      · exact List.Nodup.sublist (dropWhile_sublist' _ _) hsrestN
      · exact nodup_append_singleton nodupQ hmQ
      · exact fun h => hkeysrest ((dropWhile_sublist' _ _).subset h)
      · rw [hirsEq]
        simp only [List.length_append, List.length_cons, List.length_nil]
        push_cast
        ring
      · rw [lirCount_dropWhile_isHIR]
        have hc : lirCount es4 srest = lirCount t.entries srest :=
          lirCount_congr hes4srest
        rw [hc, lirsEq, lirCount_head]
        push_cast
        ring
      · intro k hk
        have hk2 := (dropWhile_sublist' _ _).subset hk
        rw [hes4srest k hk2]
        exact keysS k (hsrestS k hk2)
      · intro k hk
        rcases List.mem_append.1 hk with h | h
        · have hkm : k ≠ m := fun hc => hmQ (hc ▸ h)
          have hkk : k ≠ key := fun hc => keyNotQ (hc ▸ h)
          rw [hes4k k hkm, hes2k k hkk]
          exact keysQ k h
        · simp only [List.mem_singleton] at h
          subst h
          rw [hes4m, hes2m]
          exact hmkey
      · intro k hk
        rcases List.mem_append.1 hk with h | h
        · have hkm : k ≠ m := fun hc => hmQ (hc ▸ h)
          have hkk : k ≠ key := fun hc => keyNotQ (hc ▸ h)
          rw [hes4k k hkm, hes2k k hkk]
          exact qHIR k h
        · simp only [List.mem_singleton] at h
          subst h
          rw [hes4m]
      · intro k hk
        rcases List.mem_append.1 hk with h | h
        · have hkm : k ≠ m := fun hc => hmQ (hc ▸ h)
          have hkk : k ≠ key := fun hc => keyNotQ (hc ▸ h)
          rw [hes4k k hkm, hes2k k hkk]
          exact qRes k h
        · simp only [List.mem_singleton] at h
          subst h
          rw [hes4m, hes2m]
          exact hmres
      · intro k hk
        have hk2 := (dropWhile_sublist' _ _).subset hk
        rw [hes4srest k hk2]
        exact sLIRres k (hsrestS k hk2)
      · intro k hk
        have hk2 := (dropWhile_sublist' _ _).subset hk
        rw [hes4srest k hk2]
        intro hf
        rw [sHIRq k (hsrestS k hk2) hf]
        have hkm : k ≠ m := fun h => hmsrest (h ▸ hk2)
        constructor
        · intro h2
          exact List.mem_append.2 (Or.inl h2)
        · intro h2
          rcases List.mem_append.1 h2 with h3 | h3
          · exact h3
          · simp only [List.mem_singleton] at h3
            exact absurd h3 hkm
      · intro k hk
        have h4 := dropWhile_head_false (isHIRkey es4) srest k hk
        unfold isHIRkey at h4
        cases hfk : (es4 k).flag
        · rfl
        · rw [hfk] at h4; simp at h4
      · exact entryKey
      · intro _
        show key ∉ t.Q ++ [m]
        intro hc
        rcases List.mem_append.1 hc with h2 | h2
        · exact keyNotQ h2
        · simp only [List.mem_singleton] at h2
          exact hmkeyne h2.symm
      · intro hc
        simp [hentry2] at hc
      · exact add_one_le_ceil_of_cast_lt hlt
      · have hflag2 : entry2.flag = Flag.LIR := rfl
        rw [if_pos hflag2]
        omega
      · refine le_trans ?_ sLen
        have h1 : (srest.dropWhile (isHIRkey es4)).length ≤ srest.length :=
          (dropWhile_sublist' _ _).length_le
        have h2 : (srest.length + 1 : ℕ) = t.S.length := by rw [hSS]; rfl
        have h3 : ((srest.dropWhile (isHIRkey es4)).length : ℚ) ≤ (t.S.length : ℚ) := by
          have h5 : (srest.dropWhile (isHIRkey es4)).length ≤ t.S.length := by omega
          exact_mod_cast h5
        exact h3
    · exact ⟨hP.mh2, hP.mlEq, hP.ml1, hP.msl⟩
    · show (t.Q ++ [m]).getLast? = some m
      simp
    · show m ∉ srest.dropWhile (isHIRkey es4)
      exact fun h => hmsrest ((dropWhile_sublist' _ _).subset h)
    · show (es4 m).flag = Flag.HIR
      rw [hes4m]
    · show (es4 m).resident = true
      rw [hes4m]
      show (es2 m).resident = true
      rw [hes2m]
      exact hmres
    · rfl
    · rfl
    · rfl
    · rfl
    · rfl
    · rfl
    · rfl
    · rfl

/-- Case B, the key is found in S (lines 72-98). -/
theorem refInS_spec (s : LIRS) (key : ℕ) (hInv : Inv s) (hP : Params s)
    (hkS : key ∈ s.S) :
    ∃ s₁ entry hit, s.refInS key = .ok (s₁, entry, hit) ∧ Mid s₁ key entry ∧ Params s₁ := by
  classical
  have hkey : (s.entries key).key = key := hInv.keysS key hkS
  have hkErase : key ∉ s.S.erase key := hInv.nodupS.not_mem_erase
  have hrem' : s.removeFromS (s.entries key) =
      .ok { s with
            S := s.S.erase key
            lirs := if (s.entries key).flag = Flag.LIR ∧ (s.entries key).resident
              then s.lirs - 1 else s.lirs } := by
    rw [removeFromS_ok s (s.entries key) (by rw [hkey]; exact hkS), hkey]
  by_cases hf : (s.entries key).flag = Flag.LIR
  · -- Case B, LIR entry (lines 95-98): hit, then prune
    have hres : (s.entries key).resident = true := hInv.sLIRres key hkS hf
    have hremL : s.removeFromS (s.entries key) =
        .ok { s with S := s.S.erase key, lirs := s.lirs - 1 } := by
      rw [hrem', if_pos ⟨hf, hres⟩]
    have hprune := prune_ok { s with S := s.S.erase key, lirs := s.lirs - 1 }
      (by
        intro k hk
        exact hInv.keysS k (List.erase_subset key s.S hk))
      (by
        intro k hk
        exact hInv.sHIRq k (List.erase_subset key s.S hk))
    refine ⟨{ s with
              S := (s.S.erase key).dropWhile (isHIRkey s.entries)
              lirs := s.lirs - 1
              pruneCount := s.pruneCount + 1 },
            s.entries key, true, ?_, ?_, ⟨hP.mh2, hP.mlEq, hP.ml1, hP.msl⟩⟩
    · unfold LIRS.refInS
      simp only [hremL]
      simp only [hf, hres, reduceCtorEq, if_false, and_self, if_true, hprune]
    · constructor
      all_goals try dsimp only
      · exact List.Nodup.sublist (dropWhile_sublist' _ _) (hInv.nodupS.erase key)
      · exact hInv.nodupQ
      · exact fun h => hkErase ((dropWhile_sublist' _ _).subset h)
      · exact hInv.hirsEq
      · rw [lirCount_dropWhile_isHIR]
        have h1 := lirCount_erase s.entries hkS
        rw [if_pos ((residentLIR_iff _ _).2 ⟨hf, hres⟩)] at h1
        rw [hInv.lirsEq]
        omega
      · intro k hk
        exact hInv.keysS k (List.erase_subset key s.S ((dropWhile_sublist' _ _).subset hk))
      · exact hInv.keysQ
      · exact hInv.qHIR
      · exact hInv.qRes
      · intro k hk
        exact hInv.sLIRres k (List.erase_subset key s.S ((dropWhile_sublist' _ _).subset hk))
      · intro k hk
        exact hInv.sHIRq k (List.erase_subset key s.S ((dropWhile_sublist' _ _).subset hk))
      · intro k hk
        have h4 := dropWhile_head_false (isHIRkey s.entries) (s.S.erase key) k hk
        unfold isHIRkey at h4
        cases hfk : (s.entries k).flag
        · rfl
        · rw [hfk] at h4; simp at h4
      · exact hkey
      · exact hres
      · exact fun _ => hInv.LIR_not_mem_Q hf
      · intro hc
        rw [hf] at hc
        cases hc
      · exact hInv.hirsLe
      · rw [if_pos hf]
        have := hInv.lirsLe
        omega
      · refine le_trans ?_ hInv.sLen
        have h1 : ((s.S.erase key).dropWhile (isHIRkey s.entries)).length ≤ s.S.length :=
          le_trans (dropWhile_sublist' _ _).length_le (s.S.length_erase_le key)
        exact_mod_cast h1
  · -- Case B, HIR entry (lines 76-94)
    have hfH : (s.entries key).flag = Flag.HIR := flag_HIR_of_ne_LIR hf
    have hifneg : ¬ ((s.entries key).flag = Flag.LIR ∧ (s.entries key).resident = true) :=
      fun h => hf h.1
    have hremH : s.removeFromS (s.entries key) =
        .ok { s with S := s.S.erase key } := by
      rw [hrem', if_neg hifneg]
    obtain ⟨h0, t0, hSS⟩ : ∃ h0 t0, s.S = h0 :: t0 := by
      cases hS2 : s.S with
      | nil => rw [hS2] at hkS; cases hkS
      | cons a b => exact ⟨a, b, rfl⟩
    have hh0take : h0 ∈ s.S.take 1 := by rw [hSS]; simp
    have hh0LIR : (s.entries h0).flag = Flag.LIR := hInv.bottomLIR h0 hh0take
    have hh0ne : key ≠ h0 := by
      intro hc
      rw [← hc] at hh0LIR
      rw [hh0LIR] at hfH
      cases hfH
    have hh0ne' : h0 ≠ key := fun hc => hh0ne hc.symm
    have hErase : s.S.erase key = h0 :: t0.erase key := by
      rw [hSS]
      simp [List.erase_cons, hh0ne']
    have hbot : ∀ k ∈ (s.S.erase key).take 1, (s.entries k).flag = Flag.LIR := by
      intro k hk
      rw [hErase] at hk
      simp at hk
      rw [hk]
      exact hh0LIR
    have hSef : s.S.erase key ≠ [] := by rw [hErase]; simp
    have hlenErase : ((s.S.erase key).length : ℚ) ≤ s.maxSlength := by
      refine le_trans ?_ hInv.sLen
      exact_mod_cast s.S.length_erase_le key
    have hcountErase : lirCount s.entries (s.S.erase key) = lirCount s.entries s.S := by
      have h1 := lirCount_erase s.entries hkS
      rw [if_neg (by simp [residentLIR, hfH])] at h1
      omega
    by_cases hres : (s.entries key).resident = true
    · -- resident HIR in S: hit (lines 79-81)
      have hkQ : key ∈ s.Q := (hInv.sHIRq key hkS hfH).1 hres
      have hkQerase : key ∉ s.Q.erase key := hInv.nodupQ.not_mem_erase
      have hQ1 : 1 ≤ s.Q.length := List.length_pos.2 (List.ne_nil_of_mem hkQ)
      have hremQ : LIRS.removeFromQ { s with S := s.S.erase key } (s.entries key) =
          .ok { s with S := s.S.erase key, Q := s.Q.erase key, hirs := s.hirs - 1 } := by
        rw [removeFromQ_ok _ (s.entries key) (by rw [hkey]; exact hkQ) hres, hkey]
      obtain ⟨s₁, m, srest, hTS, hcomp, hMid, hPar, _⟩ :=
        promoteHIRinS_spec
          { s with S := s.S.erase key, Q := s.Q.erase key, hirs := s.hirs - 1 }
          key (s.entries key) true
          ⟨hP.mh2, hP.mlEq, hP.ml1, hP.msl⟩
          (hInv.nodupS.erase key) (hInv.nodupQ.erase key)
          (by
            show s.hirs - 1 = ((s.Q.erase key).length : ℤ)
            rw [List.length_erase_of_mem hkQ, hInv.hirsEq]
            omega)
          (by
            show s.lirs = (lirCount s.entries (s.S.erase key) : ℤ)
            rw [hcountErase]
            exact hInv.lirsEq)
          (fun k hk => hInv.keysS k (List.erase_subset key s.S hk))
          (fun k hk => hInv.keysQ k (List.erase_subset key s.Q hk))
          (fun k hk => hInv.qHIR k (List.erase_subset key s.Q hk))
          (fun k hk => hInv.qRes k (List.erase_subset key s.Q hk))
          (fun k hk => hInv.sLIRres k (List.erase_subset key s.S hk))
          (by
            intro k hk hfk
            have hkS2 : k ∈ s.S := List.erase_subset key s.S hk
            have hkne : k ≠ key := fun hc => hkErase (hc ▸ hk)
            rw [hInv.sHIRq k hkS2 hfk]
            exact (List.mem_erase_of_ne hkne).symm)
          hbot hSef hkErase hkQerase hkey
          (by
            show s.hirs - 1 ≤ ⌈s.maxhirs⌉
            have := hInv.hirsLe
            omega)
          (by
            show s.lirs ≤ ⌈s.maxlirs⌉
            exact hInv.lirsLe)
          (by
            show ((s.S.erase key).length : ℚ) ≤ s.maxSlength
            exact hlenErase)
      refine ⟨s₁, _, true, ?_, hMid, hPar⟩
      unfold LIRS.refInS
      simp only [hremH]
      simp only [hfH, if_true, hres, reduceCtorEq, if_false, hremQ]
      exact hcomp
    · -- non-resident HIR in S: miss (lines 82-84)
      have hkQn : key ∉ s.Q := by
        intro hc
        exact hres (hInv.qRes key hc)
      obtain ⟨s₁, m, srest, hTS, hcomp, hMid, hPar, _⟩ :=
        promoteHIRinS_spec
          { s with S := s.S.erase key }
          key (s.entries key) false
          ⟨hP.mh2, hP.mlEq, hP.ml1, hP.msl⟩
          (hInv.nodupS.erase key) hInv.nodupQ
          (by
            show s.hirs = (s.Q.length : ℤ)
            exact hInv.hirsEq)
          (by
            show s.lirs = (lirCount s.entries (s.S.erase key) : ℤ)
            rw [hcountErase]
            exact hInv.lirsEq)
          (fun k hk => hInv.keysS k (List.erase_subset key s.S hk))
          hInv.keysQ hInv.qHIR hInv.qRes
          (fun k hk => hInv.sLIRres k (List.erase_subset key s.S hk))
          (by
            intro k hk hfk
            exact hInv.sHIRq k (List.erase_subset key s.S hk) hfk)
          hbot hSef hkErase hkQn hkey
          hInv.hirsLe hInv.lirsLe
          (by
            show ((s.S.erase key).length : ℚ) ≤ s.maxSlength
            exact hlenErase)
      refine ⟨s₁, _, false, ?_, hMid, hPar⟩
      unfold LIRS.refInS
      simp only [hremH]
      have hresF : (s.entries key).resident = false := by
        cases hrr : (s.entries key).resident
        · rfl
        · exact absurd hrr hres
      simp only [hfH, if_true, hresF, Bool.false_eq_true, if_false]
      exact hcomp

/-- `processReference` preserves the invariant and never raises. -/
theorem processReference_ok (s : LIRS) (key : ℕ) (hInv : Inv s) (hP : Params s) :
    ∃ s' hit, s.processReference key = .ok (s', hit) ∧ Inv s' ∧ Params s' := by
  classical
  by_cases hlast : some key = s.lastKey
  · -- Case A: repeated reference (lines 67-68)
    refine ⟨{ s with refs := s.refs + 1 }, true, ?_, ?_, ?_⟩
    · simp only [LIRS.processReference]
      rw [if_pos hlast]
    · exact ⟨hInv.nodupS, hInv.nodupQ, hInv.hirsEq, hInv.lirsEq, hInv.keysS, hInv.keysQ,
        hInv.qHIR, hInv.qRes, hInv.sLIRres, hInv.sHIRq, hInv.bottomLIR, hInv.qLirs,
        hInv.hirsLe, hInv.lirsLe, hInv.sLen⟩
    · exact ⟨hP.mh2, hP.mlEq, hP.ml1, hP.msl⟩
  · have hInv0 : Inv { s with refs := s.refs + 1, lastKey := some key } :=
      ⟨hInv.nodupS, hInv.nodupQ, hInv.hirsEq, hInv.lirsEq, hInv.keysS, hInv.keysQ,
        hInv.qHIR, hInv.qRes, hInv.sLIRres, hInv.sHIRq, hInv.bottomLIR, hInv.qLirs,
        hInv.hirsLe, hInv.lirsLe, hInv.sLen⟩
    have hP0 : Params { s with refs := s.refs + 1, lastKey := some key } :=
      ⟨hP.mh2, hP.mlEq, hP.ml1, hP.msl⟩
    by_cases hmemS : key ∈ s.S
    · obtain ⟨s₁, entry, hit, hcomp, hMid, hPar⟩ :=
        refInS_spec { s with refs := s.refs + 1, lastKey := some key } key hInv0 hP0 hmemS
      obtain ⟨s', htail, hInv', hPar', _⟩ := refTail_spec s₁ key entry hit hPar hMid
      refine ⟨s', hit, ?_, hInv', hPar'⟩
      simp only [LIRS.processReference]
      rw [if_neg hlast, if_pos hmemS]
      simp only [hcomp]
      exact htail
    · by_cases hmemQ : key ∈ s.Q
      · obtain ⟨s₁, entry, hcomp, hMid, hPar⟩ :=
          refInQ_spec { s with refs := s.refs + 1, lastKey := some key } key hInv0 hP0
            hmemS hmemQ
        obtain ⟨s', htail, hInv', hPar', _⟩ := refTail_spec s₁ key entry true hPar hMid
        refine ⟨s', true, ?_, hInv', hPar'⟩
        simp only [LIRS.processReference]
        rw [if_neg hlast, if_neg hmemS, if_pos hmemQ]
        simp only [hcomp]
        exact htail
      · obtain ⟨s₁, entry, hcomp, hMid, hPar⟩ :=
          refMiss_spec { s with refs := s.refs + 1, lastKey := some key } key hInv0 hP0
            hmemS hmemQ
        obtain ⟨s', htail, hInv', hPar', _⟩ := refTail_spec s₁ key entry false hPar hMid
        refine ⟨s', false, ?_, hInv', hPar'⟩
        simp only [LIRS.processReference]
        rw [if_neg hlast, if_neg hmemS, if_neg hmemQ]
        simp only [hcomp]
        exact htail

/-- Safety of a whole run: every reference completes without an error. -/
theorem runTrace_ok (trace : List ℕ) (s : LIRS) (hInv : Inv s) (hP : Params s) :
    ∃ s' hs, runTrace s trace = .ok (s', hs) ∧ Inv s' ∧ Params s' := by
  induction trace generalizing s with
  | nil => exact ⟨s, [], rfl, hInv, hP⟩
  | cons k ks ih =>
      obtain ⟨s1, h1, hc1, hI1, hP1⟩ := processReference_ok s k hInv hP
      obtain ⟨s2, hs2, hc2, hI2, hP2⟩ := ih s1 hI1 hP1
      exact ⟨s2, h1 :: hs2, by simp [runTrace, hc1, hc2], hI2, hP2⟩

/-- The fresh engine satisfies the structural invariant. -/
theorem Inv_init (c : ℕ) (f : ℚ) (r : ℕ) (hc : 200 ≤ c) (hf : 1 ≤ f)
    (hr100 : r ≤ 100) : Inv (LIRS.init c f r) := by
  have hc0 : (0 : ℚ) ≤ (c : ℚ) := by positivity
  have hmx : max MIN_HIR_RESIDENT ((r : ℚ) * (1 / 100) * (c : ℚ)) ≤ (c : ℚ) := by
    apply max_le
    · show (2 : ℚ) ≤ (c : ℚ)
      have : (200 : ℚ) ≤ (c : ℚ) := by exact_mod_cast hc
      linarith
    · have hr' : (r : ℚ) ≤ 100 := by exact_mod_cast hr100
      nlinarith
  refine ⟨by simp [LIRS.init], by simp [LIRS.init], by simp [LIRS.init],
    by simp [LIRS.init, lirCount], ?_, ?_, ?_, ?_, ?_, ?_, ?_, ?_, ?_, ?_, ?_⟩
  · intro k hk; simp [LIRS.init] at hk
  · intro k hk; simp [LIRS.init] at hk
  · intro k hk; simp [LIRS.init] at hk
  · intro k hk; simp [LIRS.init] at hk
  · intro k hk; simp [LIRS.init] at hk
  · intro k hk; simp [LIRS.init] at hk
  · intro k hk; simp [LIRS.init] at hk
  · left; simp [LIRS.init]
  · show (0 : ℤ) ≤ ⌈max MIN_HIR_RESIDENT ((r : ℚ) * (1 / 100) * (c : ℚ))⌉
    apply Int.ceil_nonneg
    exact le_trans (by norm_num [MIN_HIR_RESIDENT]) (le_max_left MIN_HIR_RESIDENT _)
  · show (0 : ℤ) ≤ ⌈(c : ℚ) - max MIN_HIR_RESIDENT ((r : ℚ) * (1 / 100) * (c : ℚ))⌉
    apply Int.ceil_nonneg
    linarith
  · show ((List.length ([] : List ℕ)) : ℚ) ≤ f * (c : ℚ)
    simp
    nlinarith

/-- The fresh engine satisfies the parameter constraints when
`200 ≤ cacheSize`, `1 ≤ sizeLimitFactor` and `1 ≤ hirPercent ≤ 99`. -/
theorem Params_init (c : ℕ) (f : ℚ) (r : ℕ) (hc : 200 ≤ c) (hf : 1 ≤ f)
    (hr99 : r ≤ 99) : Params (LIRS.init c f r) := by
  have hc0 : (0 : ℚ) ≤ (c : ℚ) := by positivity
  have hc' : (200 : ℚ) ≤ (c : ℚ) := by exact_mod_cast hc
  have h1 : (r : ℚ) * (1 / 100) * (c : ℚ) ≤ (c : ℚ) - 1 := by
    have hr' : (r : ℚ) ≤ 99 := by exact_mod_cast hr99
    nlinarith
  have h2 : max MIN_HIR_RESIDENT ((r : ℚ) * (1 / 100) * (c : ℚ)) ≤ (c : ℚ) - 1 := by
    apply max_le _ h1
    show (2 : ℚ) ≤ (c : ℚ) - 1
    linarith
  refine ⟨le_max_left _ _, rfl, ?_, ?_⟩
  · show (1 : ℚ) ≤ (c : ℚ) - max MIN_HIR_RESIDENT ((r : ℚ) * (1 / 100) * (c : ℚ))
    linarith
  · show (c : ℚ) ≤ f * (c : ℚ)
    nlinarith

/-- `LIRS.init 200 2 1` written with normalized rational constants
(`maxhirs = max(2, 0.01*200) = 2`). -/
theorem init_200_2_1 :
    LIRS.init 200 2 1 =
      { c := 200, lirs := 0, hirs := 0, maxhirs := 2, maxlirs := 198, S := [], Q := [],
        entries := fun k => Entry.mkNew k, refs := 0, misses := 0, lastKey := none,
        recordLirs := 0, pruneCount := 0, sizeLimitFactor := 2, maxSlength := 400 } := by
  simp only [LIRS.init, MIN_HIR_RESIDENT, LIRS.mk.injEq]
  norm_num

/-- The error of a run, when it raised one (the exception type the driver
would die with). -/
def runErr : Except PyError (LIRS × List Bool) → Option PyError
  | .error e => some e
  | .ok _ => none

/-- `LIRS.init 200 2 100` with normalized rational constants
(`hirPercent = 100` gives `maxhirs = 200`, `maxlirs = 0`). -/
theorem init_200_2_100 :
    LIRS.init 200 2 100 =
      { c := 200, lirs := 0, hirs := 0, maxhirs := 200, maxlirs := 0, S := [], Q := [],
        entries := fun k => Entry.mkNew k, refs := 0, misses := 0, lastKey := none,
        recordLirs := 0, pruneCount := 0, sizeLimitFactor := 2, maxSlength := 400 } := by
  simp only [LIRS.init, MIN_HIR_RESIDENT, LIRS.mk.injEq]
  norm_num [max_def]

/-- `LIRS.init 220 1 1` with normalized rational constants: here
`maxhirs = 11/5 = 2.2`, a non-integral value, because line 49 rounds
nothing. -/
theorem init_220_1_1 :
    LIRS.init 220 1 1 =
      { c := 220, lirs := 0, hirs := 0, maxhirs := 11 / 5, maxlirs := 1089 / 5,
        S := [], Q := [], entries := fun k => Entry.mkNew k, refs := 0, misses := 0,
        lastKey := none, recordLirs := 0, pruneCount := 0, sizeLimitFactor := 1,
        maxSlength := 220 } := by
  simp only [LIRS.init, MIN_HIR_RESIDENT, LIRS.mk.injEq]
  norm_num [max_def]

/-- The trace `1..201, 1..201` of the spec's scenario row 4. -/
def trace402 : List ℕ :=
  ((List.range 201).map (· + 1)) ++ ((List.range 201).map (· + 1))

/-- The trace `1..221` (one more distinct key than `C = 220`). -/
def trace221 : List ℕ :=
  (List.range 221).map (· + 1)

/-! ## The claims -/

/-- C1 (corrected): with `cacheSize ≥ 200`, `sizeLimitFactor ≥ 1` and
`1 ≤ hirPercent ≤ 99`, every trace runs to completion: no assertion fails
and no exception is raised. The spec's range goes up to `hirPercent = 100`,
where the claim is false — the separate boundary counterexample shows the
very first reference failing the line-129 assertion. -/
theorem C1_safety (c : ℕ) (f : ℚ) (r : ℕ) (hc : 200 ≤ c) (hf : 1 ≤ f)
    (hr1 : 1 ≤ r) (hr99 : r ≤ 99) (trace : List ℕ) :
    ∃ s' hs, runTrace (LIRS.init c f r) trace = .ok (s', hs) := by
  have hr1' : 0 < r := hr1
  obtain ⟨s', hs, hok, _, _⟩ :=
    runTrace_ok trace (LIRS.init c f r) (Inv_init c f r hc hf (by omega))
      (Params_init c f r hc hf hr99)
  exact ⟨s', hs, hok⟩

/-- Witness: the safety theorem instantiated at `C = 200`, `f = 2`,
`hirPercent = 1` on the trace `[5, 6, 5]`. -/
theorem C1_safety_witness :
    ∃ s' hs, runTrace (LIRS.init 200 2 1) [5, 6, 5] = .ok (s', hs) :=
  C1_safety 200 2 1 (by norm_num) (by norm_num) (by norm_num) (by norm_num) [5, 6, 5]

/-- C1 counterexample: at the spec's stated boundary `hirPercent = 100`
(`maxlirs = 0`, every miss enters as HIR) the very first reference already
fails the `assert peekSentryLRU().flag == LIR` sanity check of line 129. -/
theorem C1_boundary_cex :
    runErr (runTrace (LIRS.init 200 2 100) [1]) = some PyError.assertionError := by
  rw [init_200_2_100]
  decide!

/-- C2 (corrected): line 49 computes `maxhirs = max(2, hirPercent·0.01·C)`
with NO rounding — the spec's `round(·)` is not in the code — and line 50
sets `maxlirs = C - maxhirs`. -/
theorem C2_maxhirs (c : ℕ) (f : ℚ) (r : ℕ) :
    (LIRS.init c f r).maxhirs =
      max MIN_HIR_RESIDENT ((r : ℚ) * (1 / 100) * (c : ℚ)) ∧
    (LIRS.init c f r).maxlirs = (c : ℚ) - (LIRS.init c f r).maxhirs :=
  ⟨rfl, rfl⟩

/-- C2 counterexample: at `C = 220`, `hirPercent = 1` the engine's
`maxhirs` is the fraction `11/5 = 2.2`, while the spec's rounded formula
gives `max(2, round(2.2)) = 2`; the two differ. -/
theorem C2_maxhirs_cex :
    (LIRS.init 220 1 1).maxhirs = 11 / 5 ∧ maxhirsSpec 220 1 = 2 ∧
    (LIRS.init 220 1 1).maxhirs ≠ maxhirsSpec 220 1 := by
  refine ⟨?_, ?_, ?_⟩ <;> decide!

/-- C3 (corrected): with the bounds read off the code's fractional
`maxhirs`/`maxlirs` (integer counters against rational bounds, i.e. their
ceilings), every run keeps `lirs ≤ ⌈maxlirs⌉`, `hirs ≤ ⌈maxhirs⌉` and
`|S| ≤ maxSlength` after every reference. The spec's Counters section
instead rounds `maxhirs` to an integer, and that bound is violated — see
the counterexample. -/
theorem C3_bounds (c : ℕ) (f : ℚ) (r : ℕ) (hc : 200 ≤ c) (hf : 1 ≤ f)
    (hr99 : r ≤ 99) (trace : List ℕ) :
    ∃ s' hs, runTrace (LIRS.init c f r) trace = .ok (s', hs) ∧
      s'.lirs ≤ ⌈s'.maxlirs⌉ ∧ s'.hirs ≤ ⌈s'.maxhirs⌉ ∧
      (s'.S.length : ℚ) ≤ s'.maxSlength := by
  obtain ⟨s', hs, hok, hI, _⟩ :=
    runTrace_ok trace (LIRS.init c f r) (Inv_init c f r hc hf (by omega))
      (Params_init c f r hc hf hr99)
  exact ⟨s', hs, hok, hI.lirsLe, hI.hirsLe, hI.sLen⟩

/-- Witness: the bounds theorem instantiated at `C = 200`, `f = 2`,
`hirPercent = 1` on the trace `[1, 2, 1]`. -/
theorem C3_bounds_witness :
    ∃ s' hs, runTrace (LIRS.init 200 2 1) [1, 2, 1] = .ok (s', hs) ∧
      s'.lirs ≤ ⌈s'.maxlirs⌉ ∧ s'.hirs ≤ ⌈s'.maxhirs⌉ ∧
      (s'.S.length : ℚ) ≤ s'.maxSlength :=
  C3_bounds 200 2 1 (by norm_num) (by norm_num) (by norm_num) [1, 2, 1]

set_option maxRecDepth 100000 in
/-- C3 counterexample: at `C = 220`, `f = 1`, `hirPercent = 1` the trace
`1..221` ends with `hirs = 3`, while the spec's rounded bound is
`max(2, round(2.2)) = 2`: the code keeps `hirs ≤ ⌈2.2⌉ = 3`, not
`hirs ≤ 2`. -/
theorem C3_bounds_cex :
    ((runTrace (LIRS.init 220 1 1) trace221).toOption.map fun p => p.1.hirs) = some 3 ∧
    ¬ ((3 : ℚ) ≤ maxhirsSpec 220 1) := by
  constructor
  · rw [init_220_1_1]
    decide!
  · decide!

set_option maxRecDepth 100000 in
/-- C4 (corrected): the double scan `1..201, 1..201` at `C = 200`, `f = 2`,
`hirPercent = 1` gives `refs = 402` and `misses = 204` — a hit rate of
`198/402 ≈ 49.254%` — not the `(402, 202, ≈49.751%)` of the spec's scenario
table. -/
theorem C4_counts :
    ((runTrace (LIRS.init 200 2 1) trace402).toOption.map fun p => (p.1.refs, p.1.misses)) =
      some (402, 204) := by
  rw [init_200_2_1]
  decide!

set_option maxRecDepth 100000 in
/-- C4 counterexample: the misses of that run are not 202. -/
theorem C4_counts_cex :
    ((runTrace (LIRS.init 200 2 1) trace402).toOption.map fun p => p.1.misses) ≠
      some 202 := by
  rw [init_200_2_1]
  decide!

/-- C5 (confirmed): a reference equal to the previous one (`lastKey`)
returns a hit immediately and the result state is literally the input with
`refs` incremented — misses, lirs, hirs, S, Q and everything else are
unchanged, so two identical consecutive references produce at most one miss
(lines 66-68). -/
theorem C5_repeat (s : LIRS) (key : ℕ) (h : some key = s.lastKey) :
    s.processReference key = .ok ({ s with refs := s.refs + 1 }, true) := by
  simp only [LIRS.processReference]
  rw [if_pos h]

/-- Witness: the repeated-reference theorem on a concrete state whose
`lastKey` is 7. -/
theorem C5_repeat_witness :
    ({ LIRS.init 200 2 1 with lastKey := some 7 } : LIRS).processReference 7 =
      .ok ({ { LIRS.init 200 2 1 with lastKey := some 7 } with
             refs := ({ LIRS.init 200 2 1 with lastKey := some 7 } : LIRS).refs + 1 },
           true) :=
  C5_repeat { LIRS.init 200 2 1 with lastKey := some 7 } 7 rfl

/-- C6 (confirmed): referencing a key found in S with flag HIR and
`resident = false` is a miss (`hit = false`); the entry is returned
promoted to LIR+resident; exactly one LIR-to-HIR migration happens: the LRU
`m` of S — necessarily LIR — is popped, flipped to HIR, pushed to the MRU
of Q and not reinserted into S, and S is then pruned (`pruneCount`
increments; the miss itself is counted later, in the common tail)
(lines 76-94 and 140-148). -/
theorem C6_nonresident_hir (s : LIRS) (key : ℕ) (hInv : Inv s) (hP : Params s)
    (hkS : key ∈ s.S) (hfH : (s.entries key).flag = Flag.HIR)
    (hres : (s.entries key).resident = false) :
    ∃ s₁ m srest,
      s.S = m :: srest ∧
      s.refInS key =
        .ok (s₁, { s.entries key with flag := Flag.LIR, resident := true }, false) ∧
      (s.entries m).flag = Flag.LIR ∧
      s₁.Q.getLast? = some m ∧ m ∉ s₁.S ∧
      (s₁.entries m).flag = Flag.HIR ∧ (s₁.entries m).resident = true ∧
      s₁.pruneCount = s.pruneCount + 1 ∧ s₁.misses = s.misses := by
  classical
  have hkey : (s.entries key).key = key := hInv.keysS key hkS
  have hkErase : key ∉ s.S.erase key := hInv.nodupS.not_mem_erase
  have hf : ¬ (s.entries key).flag = Flag.LIR := by
    rw [hfH]
    intro hc
    cases hc
  have hrem' : s.removeFromS (s.entries key) =
      .ok { s with
            S := s.S.erase key
            lirs := if (s.entries key).flag = Flag.LIR ∧ (s.entries key).resident
              then s.lirs - 1 else s.lirs } := by
    rw [removeFromS_ok s (s.entries key) (by rw [hkey]; exact hkS), hkey]
  have hifneg : ¬ ((s.entries key).flag = Flag.LIR ∧ (s.entries key).resident = true) :=
    fun hx => hf hx.1
  have hremH : s.removeFromS (s.entries key) =
      .ok { s with S := s.S.erase key } := by
    rw [hrem', if_neg hifneg]
  obtain ⟨h0, t0, hSS⟩ : ∃ h0 t0, s.S = h0 :: t0 := by
    cases hS2 : s.S with
    | nil => rw [hS2] at hkS; cases hkS
    | cons a b => exact ⟨a, b, rfl⟩
  have hh0take : h0 ∈ s.S.take 1 := by rw [hSS]; simp
  have hh0LIR : (s.entries h0).flag = Flag.LIR := hInv.bottomLIR h0 hh0take
  have hh0ne' : h0 ≠ key := by
    intro hc
    rw [hc, hfH] at hh0LIR
    cases hh0LIR
  have hErase : s.S.erase key = h0 :: t0.erase key := by
    rw [hSS]
    simp [List.erase_cons, hh0ne']
  have hbot : ∀ k ∈ (s.S.erase key).take 1, (s.entries k).flag = Flag.LIR := by
    intro k hk
    rw [hErase] at hk
    simp at hk
    rw [hk]
    exact hh0LIR
  have hSef : s.S.erase key ≠ [] := by rw [hErase]; simp
  have hlenErase : ((s.S.erase key).length : ℚ) ≤ s.maxSlength := by
    refine le_trans ?_ hInv.sLen
    exact_mod_cast s.S.length_erase_le key
  have hcountErase : lirCount s.entries (s.S.erase key) = lirCount s.entries s.S := by
    have h1 := lirCount_erase s.entries hkS
    rw [if_neg (by simp [residentLIR, hfH])] at h1
    omega
  have hkQn : key ∉ s.Q := by
    intro hc
    rw [hInv.qRes key hc] at hres
    cases hres
  obtain ⟨s₁, m, srest, hTS, hcomp, hMid, hPar, hmLIR, hQlast, hmS, hmHIR, hmRes,
      hprC, _, hmissE, _⟩ :=
    promoteHIRinS_spec { s with S := s.S.erase key } key (s.entries key) false
      ⟨hP.mh2, hP.mlEq, hP.ml1, hP.msl⟩
      (hInv.nodupS.erase key) hInv.nodupQ
      (by
        show s.hirs = (s.Q.length : ℤ)
        exact hInv.hirsEq)
      (by
        show s.lirs = (lirCount s.entries (s.S.erase key) : ℤ)
        rw [hcountErase]
        exact hInv.lirsEq)
      (fun k hk => hInv.keysS k (List.erase_subset key s.S hk))
      hInv.keysQ hInv.qHIR hInv.qRes
      (fun k hk => hInv.sLIRres k (List.erase_subset key s.S hk))
      (by
        intro k hk hfk
        exact hInv.sHIRq k (List.erase_subset key s.S hk) hfk)
      hbot hSef hkErase hkQn hkey
      hInv.hirsLe hInv.lirsLe
      (by
        show ((s.S.erase key).length : ℚ) ≤ s.maxSlength
        exact hlenErase)
  have h1 : s.S.erase key = m :: srest := hTS
  rw [hErase] at h1
  injection h1 with hm hsrest
  refine ⟨s₁, m, t0, ?_, ?_, ?_, hQlast, hmS, hmHIR, hmRes, hprC, hmissE⟩
  · rw [hSS, hm]
  · unfold LIRS.refInS
    simp only [hremH]
    simp only [hfH, if_true, hres, Bool.false_eq_true, if_false]
    exact hcomp
  · exact hmLIR

/-- Witness: the non-resident-HIR theorem on `sampleState` at key 5. -/
theorem C6_nonresident_hir_witness :
    ∃ s₁ m srest,
      sampleState.S = m :: srest ∧
      sampleState.refInS 5 =
        .ok (s₁, { sampleState.entries 5 with flag := Flag.LIR, resident := true },
             false) ∧
      (sampleState.entries m).flag = Flag.LIR ∧
      s₁.Q.getLast? = some m ∧ m ∉ s₁.S ∧
      (s₁.entries m).flag = Flag.HIR ∧ (s₁.entries m).resident = true ∧
      s₁.pruneCount = sampleState.pruneCount + 1 ∧ s₁.misses = sampleState.misses :=
  C6_nonresident_hir sampleState 5 (by decide!) (by decide!) (by decide!) (by decide!)
    (by decide!)

/-- C7 (confirmed): under the eviction guard `hirs ≥ maxhirs`,
`evictQentryLRU` pops exactly the LRU entry `q0` of Q — which on an
invariant state is HIR and resident — marks it non-resident and decrements
`hirs`; the result record touches only `Q`, `hirs` and the entry object, so
S (contents and order) is unchanged (lines 166-171). -/
theorem C7_evict (s : LIRS) (q0 : ℕ) (qrest : List ℕ) (hInv : Inv s)
    (hQ : s.Q = q0 :: qrest) (hguard : (s.hirs : ℚ) ≥ s.maxhirs) :
    (s.entries q0).flag = Flag.HIR ∧ (s.entries q0).resident = true ∧
    s.evictQentryLRU =
      .ok { s with
            Q := qrest
            hirs := s.hirs - 1
            entries := updEntries s.entries q0 { s.entries q0 with resident := false } } := by
  have hq0 : q0 ∈ s.Q := by rw [hQ]; simp
  exact ⟨hInv.qHIR q0 hq0, hInv.qRes q0 hq0,
    evictQentryLRU_ok s hQ hguard (hInv.qHIR q0 hq0) (hInv.qRes q0 hq0)
      (cast_sub_one_le_of_le_ceil hInv.hirsLe)⟩

/-- Witness: the eviction theorem on `sampleStateQ` (Q = [7, 8],
`hirs = maxhirs = 2`). -/
theorem C7_evict_witness :
    (sampleStateQ.entries 7).flag = Flag.HIR ∧
    (sampleStateQ.entries 7).resident = true ∧
    sampleStateQ.evictQentryLRU =
      .ok { sampleStateQ with
            Q := [8]
            hirs := sampleStateQ.hirs - 1
            entries := updEntries sampleStateQ.entries 7
              { sampleStateQ.entries 7 with resident := false } } :=
  C7_evict sampleStateQ 7 [8] (by decide!) rfl (by decide!)

/-- C8 (code_bug): in binary mode every full 8-byte record is decoded
little-endian (first byte least significant), but line 306 binds the WHOLE
result of `struct.unpack('Q', data)` — a one-element tuple — so the key
passed to `processReference` is always a tuple `(n,)` and never the scalar
u64 `n` that the interface `process_reference(key: u64)` describes. -/
theorem C8_binary_tuple (bytes : List ℕ) (ks : List PyKey)
    (h : readBinaryKeys bytes = .ok ks) :
    ∀ k ∈ ks, (∃ data, data.length = 8 ∧ k = PyKey.tuple (decodeLE data)) ∧
      ∀ n : ℕ, k ≠ PyKey.int n := by
  induction ks generalizing bytes with
  | nil => intro k hk; cases hk
  | cons k0 ks' ih =>
      rcases bytes with _ | ⟨b0, _ | ⟨b1, _ | ⟨b2, _ | ⟨b3, _ | ⟨b4, _ | ⟨b5, _ |
        ⟨b6, _ | ⟨b7, rest⟩⟩⟩⟩⟩⟩⟩⟩
      · simp [readBinaryKeys] at h
      · simp [readBinaryKeys] at h
      · simp [readBinaryKeys] at h
      · simp [readBinaryKeys] at h
      · simp [readBinaryKeys] at h
      · simp [readBinaryKeys] at h
      · simp [readBinaryKeys] at h
      · simp [readBinaryKeys] at h
      · rcases hr : readBinaryKeys rest with e | ks2
        · simp [readBinaryKeys, hr] at h
        · simp only [readBinaryKeys, hr] at h
          rw [Except.ok.injEq, List.cons.injEq] at h
          obtain ⟨hk0, hks⟩ := h
          intro k hk
          rcases List.mem_cons.1 hk with hkk | hkk
          · subst hkk
            refine ⟨⟨[b0, b1, b2, b3, b4, b5, b6, b7], by simp, hk0.symm⟩, ?_⟩
            intro n hc
            rw [← hk0] at hc
            cases hc
          · exact ih rest (by rw [hr, hks]) k hkk

/-- Witness: the bytes `01 00 00 00 00 00 00 00` decode to the single key
`(1,)` — a tuple, not the integer 1. -/
theorem C8_binary_tuple_witness :
    (∃ data, data.length = 8 ∧ PyKey.tuple 1 = PyKey.tuple (decodeLE data)) ∧
    ∀ n : ℕ, PyKey.tuple 1 ≠ PyKey.int n :=
  C8_binary_tuple [1, 0, 0, 0, 0, 0, 0, 0] [PyKey.tuple 1] rfl (PyKey.tuple 1) (by simp)

/-- C9 (confirmed): the engine is deterministic. `processReference` is
embedded as a pure function of the state, so two engines constructed with
the same `(cacheSize, sizeLimitFactor, hirPercent)` and fed the same trace
return the same hit/miss list and identical final states — in particular
equal `refs`, `misses`, `lirs`, `hirs`, `pruneCount`, S and Q. -/
theorem C9_two_run (c₁ c₂ : ℕ) (f₁ f₂ : ℚ) (r₁ r₂ : ℕ) (t₁ t₂ : List ℕ)
    (hc : c₁ = c₂) (hf : f₁ = f₂) (hr : r₁ = r₂) (ht : t₁ = t₂) :
    runTrace (LIRS.init c₁ f₁ r₁) t₁ = runTrace (LIRS.init c₂ f₂ r₂) t₂ := by
  rw [hc, hf, hr, ht]

/-- Witness: two-run equality at `C = 200`, `f = 2`, `hirPercent = 1` on
the trace `[1, 2, 1]`. -/
theorem C9_two_run_witness :
    runTrace (LIRS.init 200 2 1) [1, 2, 1] = runTrace (LIRS.init 200 2 1) [1, 2, 1] :=
  C9_two_run 200 200 2 2 1 1 [1, 2, 1] [1, 2, 1] rfl rfl rfl rfl

/-- C10 (confirmed): `prune` returns the state with S replaced by
`S.dropWhile (isHIRkey entries)` — it pops HIR-flagged entries from the
LRU end of S until the LRU entry is LIR or S is empty — and with
`pruneCount` incremented; the result record touches nothing else, so Q,
`lirs`, `hirs`, `refs` and `misses` are unchanged (lines 150-163). The two
hypotheses are only the per-key conditions that make the loop body's
asserts (lines 157-163) pass: every key in S owns its entry, and a HIR
entry in S is resident exactly when its key is in Q. They hold at both call
sites (lines 94 and 98), including mid-reference states whose LRU entries
are HIR and really get popped — no bottom-LIR assumption is made. -/
theorem C10_prune_frame (s : LIRS)
    (hkeys : ∀ k ∈ s.S, (s.entries k).key = k)
    (hq : ∀ k ∈ s.S, (s.entries k).flag = Flag.HIR →
      ((s.entries k).resident = true ↔ k ∈ s.Q)) :
    s.prune = .ok { s with
                    S := s.S.dropWhile (isHIRkey s.entries)
                    pruneCount := s.pruneCount + 1 } :=
  prune_ok s hkeys hq

/-- Witness: the prune frame theorem on `sampleStatePrune`, whose S is
`[5, 6, 10]` with the HIR entries 5 and 6 below the LIR entry 10 — this
invocation really pops two entries (the `dropWhile` leaves `[10]`). -/
theorem C10_prune_frame_witness :
    sampleStatePrune.prune =
      .ok { sampleStatePrune with
            S := sampleStatePrune.S.dropWhile (isHIRkey sampleStatePrune.entries)
            pruneCount := sampleStatePrune.pruneCount + 1 } :=
  C10_prune_frame sampleStatePrune (by decide) (by decide)

end LirsPy
